import Mathlib

/-!
# A shallow embedding of the exfs2 user-space filesystem

This file embeds the on-disk engine of `src/exfs2.c` (together with the
constants and record layouts of its header) in Lean and proves, or refutes,
a series of specification claims about it.

Modelling conventions, fixed once and used throughout:

* Segments are flattened.  In the C code a global inode number is
  `segment * records_per_segment + slot` with `slot < records_per_segment`,
  so global numbers are dense natural numbers allocated first-fit in
  increasing order; the model therefore keeps one flat bitmap / record list
  per space, extended on demand exactly when the C code would create a new
  segment.  (The segment-structured inode allocator that claim C6 is about
  is additionally modelled verbatim, segment list and all, further below.)
* A bitmap is a `List Bool` indexed by bit number; `set_bit`/`clear_bit`
  become `List.set`, `find_free_bit` is translated structurally from the
  scanning loop.  Bits beyond the list (beyond any created segment) read as
  `false`, matching the zero-filled container files.
* A C string is modelled as the list of its characters before the first
  NUL, so a zeroed 256-byte name field is `[]`.
* Disk blocks carry typed content (`bytes`, directory `entries`, or block
  `ptrs`); every block the algorithms read has previously been written with
  the same type, mirroring the C code's consistent reinterpretation of the
  raw 4096-byte buffers.
* `int` results that are only status codes/identifiers are `ℤ` where the
  sentinel `-1` matters and `ℕ` where only valid ids flow.
-/

set_option maxRecDepth 16384

namespace Exfs2

/-! ## Constants from the header -/

def SEGMENT_SIZE : ℕ := 1024 * 1024

def BLOCK_SIZE : ℕ := 4096

def MAX_FILENAME : ℕ := 256

def MAX_PATH : ℕ := 1024

def MAX_DIRECT_BLOCKS : ℕ := 1017

/-- `sizeof(int)` on the reference platform (ILP32/LP64). -/
def SIZEOF_INT : ℕ := 4

/-- `sizeof(inode_t)`: `int type` (4) + alignment padding (4) + `size_t size`
(8) + `int num_direct` (4) + `int direct_blocks[1017]` (4068) + three `int`
indirect pointers (12) + trailing padding to the 8-byte alignment (4),
giving 4104 bytes. -/
def SIZEOF_INODE : ℕ := 4104

/-- `sizeof(dir_entry_t)`: `char name[256]` + `int inode_num` = 260 bytes. -/
def SIZEOF_DIR_ENTRY : ℕ := 260

/-- `(SEGMENT_SIZE - BLOCK_SIZE) / sizeof(inode_t)` = 254. -/
def NUM_INODES_PER_SEGMENT : ℕ := (SEGMENT_SIZE - BLOCK_SIZE) / SIZEOF_INODE

/-- `(SEGMENT_SIZE - BLOCK_SIZE) / BLOCK_SIZE` = 255. -/
def BLOCKS_PER_SEGMENT : ℕ := (SEGMENT_SIZE - BLOCK_SIZE) / BLOCK_SIZE

/-- `BLOCK_SIZE / sizeof(dir_entry_t)` = 15. -/
def DIR_ENTRIES_PER_BLOCK : ℕ := BLOCK_SIZE / SIZEOF_DIR_ENTRY

/-- `BLOCK_SIZE / sizeof(int)` = 1024 pointers per indirect block. -/
def PTRS_PER_BLOCK : ℕ := BLOCK_SIZE / SIZEOF_INT

/-! ## Data model -/

/-- A filename, i.e. the characters of a C string before its first NUL. -/
abbrev Name := List Char

/-- `dir_entry_t`: a 256-byte name and an inode number, `-1` marking a free
slot. -/
structure DirEntry where
  name : Name
  inode_num : ℤ
deriving DecidableEq

/-- The content of one 4 KiB data block, typed by how the engine uses it. -/
inductive BlockData where
  | bytes (data : List ℕ)
  | entries (es : List DirEntry)
  | ptrs (ids : List ℕ)
deriving DecidableEq

/-- `inode_t`.  `direct_blocks` always has length `MAX_DIRECT_BLOCKS`
(a fresh record is all zero bytes); only the first `num_direct` slots are
meaningful. -/
structure Inode where
  type : ℕ
  size : ℕ
  num_direct : ℕ
  direct_blocks : List ℕ
  indirect_block : ℤ
  double_indirect_block : ℤ
  triple_indirect_block : ℤ
deriving DecidableEq

/-- The persistent state: flat inode bitmap and record array, flat data
bitmap and block array (see the flattening convention in the header
comment).  The record/block list always has the same length as its
bitmap. -/
structure FS where
  ibm : List Bool
  inodes : List Inode
  dbm : List Bool
  disk : List BlockData
deriving DecidableEq

/-- An all-zero inode record, as found in a freshly created (zero-filled)
segment. -/
def zeroInode : Inode :=
  { type := 0, size := 0, num_direct := 0
    direct_blocks := List.replicate MAX_DIRECT_BLOCKS 0
    indirect_block := 0, double_indirect_block := 0, triple_indirect_block := 0 }

/-- A directory inode as initialised by the code (`memset` to zero, then
type/size/num_direct and the three `-1` indirect pointers). -/
def freshDirInode : Inode :=
  { type := 2, size := 0, num_direct := 0
    direct_blocks := List.replicate MAX_DIRECT_BLOCKS 0
    indirect_block := -1, double_indirect_block := -1, triple_indirect_block := -1 }

/-- A file inode as initialised by `exfs2_add` before the copy loop. -/
def freshFileInode : Inode := { freshDirInode with type := 1 }

/-! ## Bitmap allocator -/

/-- `find_free_bit`: index of the lowest clear bit among the first
`num_bits` bits, bits beyond the stored list reading as clear (the
container files are zero-filled). -/
def find_free_bit : List Bool → ℕ → Option ℕ
  | _, 0 => none
  | [], _ + 1 => some 0
  | false :: _, _ + 1 => some 0
  | true :: rest, n + 1 => (find_free_bit rest n).map (· + 1)

/-! ## Data block store (flattened segments) -/

/-- `allocate_block`: first-fit over the existing data bitmaps; when every
existing bit is set the C code creates the next zero-filled data segment and
takes its first block, which in the flat model is the next index. -/
def allocate_block (fs : FS) : ℕ × FS :=
  match find_free_bit fs.dbm fs.dbm.length with
  | some i => (i, { fs with dbm := fs.dbm.set i true })
  | none =>
      (fs.dbm.length,
       { fs with
           dbm := fs.dbm ++ [true]
           disk := fs.disk ++ [.bytes (List.replicate BLOCK_SIZE 0)] })

def read_block (fs : FS) (block_id : ℕ) : Option BlockData := fs.disk[block_id]?

def write_block (fs : FS) (block_id : ℕ) (b : BlockData) : FS :=
  { fs with disk := fs.disk.set block_id b }

/-- `free_block`: clear the block's bit; the block content is untouched. -/
def free_block (fs : FS) (block_id : ℕ) : FS :=
  { fs with dbm := fs.dbm.set block_id false }

/-- Read a block as an array of `BLOCK_SIZE / sizeof(int)` block ids.  The
default case is never hit on the blocks the algorithms actually consult (an
indirect block is always written before it is read). -/
def readPtrs (fs : FS) (block_id : ℕ) : List ℕ :=
  match fs.disk[block_id]? with
  | some (.ptrs l) => l
  | _ => List.replicate PTRS_PER_BLOCK 0

/-! ## Inode table (flattened segments) -/

/-- `allocate_inode` on the flattened inode space (used by the tree
operations; the segment-structured version proved for claim C6 is
`allocate_inode_segs` below). -/
def allocate_inode (fs : FS) : ℕ × FS :=
  match find_free_bit fs.ibm fs.ibm.length with
  | some i => (i, { fs with ibm := fs.ibm.set i true })
  | none =>
      (fs.ibm.length,
       { fs with ibm := fs.ibm ++ [true], inodes := fs.inodes ++ [zeroInode] })

def read_inode (fs : FS) (n : ℕ) : Option Inode := fs.inodes[n]?

def write_inode (fs : FS) (n : ℕ) (ino : Inode) : FS :=
  { fs with inodes := fs.inodes.set n ino }

/-- `free_inode`: clear the inode's bitmap bit; record bytes are left as
they were. -/
def free_inode (fs : FS) (n : ℕ) : FS :=
  { fs with ibm := fs.ibm.set n false }

/-! ## Directory layer -/

/-- A free directory entry as the code initialises it: zeroed name,
`inode_num = -1`. -/
def freeDirEntry : DirEntry := { name := [], inode_num := -1 }

def load_directory_entries (fs : FS) (block_id : ℕ) : Option (List DirEntry) :=
  match fs.disk[block_id]? with
  | some (.entries es) => some es
  | _ => none

def save_directory_entries (fs : FS) (block_id : ℕ) (es : List DirEntry) : FS :=
  write_block fs block_id (.entries es)

/-- First live entry of a block whose name compares equal
(`inode_num != -1 && strcmp == 0`). -/
def findEntry (es : List DirEntry) (name : Name) : Option DirEntry :=
  es.find? (fun e => e.inode_num ≠ -1 ∧ e.name = name)

/-- The block-scanning loop of `find_entry_in_dir`, over the live direct
block ids; a block that fails to load is skipped (`continue`). -/
def find_entry_blocks (fs : FS) (name : Name) : List ℕ → ℤ
  | [] => -1
  | bid :: rest =>
      match load_directory_entries fs bid with
      | none => find_entry_blocks fs name rest
      | some es =>
          match findEntry es name with
          | some e => e.inode_num
          | none => find_entry_blocks fs name rest

/-- `find_entry_in_dir`: reject non-directories, then scan the first
`num_direct` direct blocks. -/
def find_entry_in_dir (fs : FS) (dir : Inode) (name : Name) : ℤ :=
  if dir.type ≠ 2 then -1
  else find_entry_blocks fs name (dir.direct_blocks.take dir.num_direct)

/-- Index of the first free slot (`inode_num == -1`) in a block. -/
def freeSlotIdx (es : List DirEntry) : Option ℕ :=
  es.findIdx? (fun e => e.inode_num = -1)

/-- The existing-blocks pass of `add_entry_to_dir`: place the (truncated)
name in the first free slot of the first block that has one and persist that
block; `none` when every loaded block is full. -/
def add_entry_blocks (fs : FS) (name : Name) (child : ℤ) : List ℕ → Option FS
  | [] => none
  | bid :: rest =>
      match load_directory_entries fs bid with
      | none => add_entry_blocks fs name child rest
      | some es =>
          match freeSlotIdx es with
          | some j =>
              some (save_directory_entries fs bid
                (es.set j { name := name.take (MAX_FILENAME - 1), inode_num := child }))
          | none => add_entry_blocks fs name child rest

/-- Result of `add_entry_to_dir`: the C status (`0` ok, `-1` failure), the
updated filesystem, and the caller's in-memory directory inode (the C code
mutates it through the pointer only on the new-block path). -/
structure AddEntryResult where
  status : ℤ
  fs : FS
  dir : Inode
deriving DecidableEq

/-- `add_entry_to_dir`.  The save-failure path of the C code (free the fresh
block and fail) is unreachable in the model because block writes cannot
fail. -/
def add_entry_to_dir (fs : FS) (dir : Inode) (dir_inode_num : ℕ)
    (name : Name) (child_inode_num : ℤ) : AddEntryResult :=
  if dir.type ≠ 2 then ⟨-1, fs, dir⟩
  else if find_entry_in_dir fs dir name ≠ -1 then ⟨-1, fs, dir⟩
  else
    match add_entry_blocks fs name child_inode_num (dir.direct_blocks.take dir.num_direct) with
    | some fs' => ⟨0, fs', dir⟩
    | none =>
        if MAX_DIRECT_BLOCKS ≤ dir.num_direct then ⟨-1, fs, dir⟩
        else
          let a := allocate_block fs
          let es0 := (List.replicate DIR_ENTRIES_PER_BLOCK freeDirEntry).set 0
            { name := name.take (MAX_FILENAME - 1), inode_num := child_inode_num }
          let fs1 := save_directory_entries a.2 a.1 es0
          let dir' : Inode :=
            { dir with
                direct_blocks := dir.direct_blocks.set dir.num_direct a.1
                num_direct := dir.num_direct + 1
                size := dir.size + BLOCK_SIZE }
          ⟨0, write_inode fs1 dir_inode_num dir', dir'⟩

/-! ## Path splitting -/

/-- The `strtok` loop of `split_path`: split on `'/'`, dropping empty
tokens.  `acc` holds the characters of the current token in reverse. -/
def splitTokens : List Char → List Char → List Name
  | acc, [] => if acc = [] then [] else [acc.reverse]
  | acc, c :: rest =>
      if c = '/' then
        if acc = [] then splitTokens [] rest else acc.reverse :: splitTokens [] rest
      else splitTokens (c :: acc) rest

/-- `split_path`: copy at most `MAX_PATH - 1` characters, tokenise on
slashes, truncate each component to 255 characters, store at most 32
components. -/
def split_path (path : List Char) : List Name :=
  ((splitTokens [] (path.take (MAX_PATH - 1))).map (·.take (MAX_FILENAME - 1))).take 32

/-! ## The write-side growth loop of `exfs2_add` -/

/-- The loop state of the copy loop in `exfs2_add`: the filesystem, the
in-construction file inode, and the function-local counters
`total_blocks`, `indirect_count`, `double_indirect_level1_count`,
`double_indirect_level2_count`.  The local mirror arrays need not be part
of the state: on every iteration they are either freshly zeroed or re-read
from disk before use. -/
structure AddLoopState where
  fs : FS
  file : Inode
  total_blocks : ℕ
  indirect_count : ℕ
  level1 : ℕ
  level2 : ℕ
deriving DecidableEq

/-- A source chunk padded with zero bytes to a full block
(`memset(buffer + bytes_read, 0, ...)`). -/
def padBlock (chunk : List ℕ) : BlockData :=
  .bytes (chunk ++ List.replicate (BLOCK_SIZE - chunk.length) 0)

/-- One iteration of the copy loop of `exfs2_add` for one chunk read from
the source file.  Faithful to the reference, including the buggy
double-indirect growth: the "need a new level 1 block" condition consults
slot `level1` (the slot *after* the current level-1 block) of the
re-read double-indirect mirror, which is always zero, so every chunk in the
double-indirect range opens a fresh level-1 block.  When `level1` reaches
`PTRS_PER_BLOCK` the C code indexes `double_indirect_block[level1]` out of
bounds (undefined behaviour); the model's `List.getD`/`List.set` read the
sentinel 0 and drop the write there. -/
def addLoopStep (st : AddLoopState) (chunk : List ℕ) : AddLoopState :=
  let a := allocate_block st.fs
  let block_id := a.1
  let fs2 := write_block a.2 block_id (padBlock chunk)
  if st.total_blocks < MAX_DIRECT_BLOCKS then
    -- direct block
    { st with
        fs := fs2
        file :=
          { st.file with
              direct_blocks := st.file.direct_blocks.set st.file.num_direct block_id
              num_direct := st.file.num_direct + 1
              size := st.file.size + chunk.length }
        total_blocks := st.total_blocks + 1 }
  else if st.total_blocks < MAX_DIRECT_BLOCKS + PTRS_PER_BLOCK then
    -- single indirect block territory
    let r : ℕ × FS × List ℕ :=
      if st.file.indirect_block = -1 then
        let b := allocate_block fs2
        (b.1, b.2, List.replicate PTRS_PER_BLOCK 0)
      else
        (st.file.indirect_block.toNat, fs2, readPtrs fs2 st.file.indirect_block.toNat)
    let mirror := r.2.2.set st.indirect_count block_id
    let fs4 := write_block r.2.1 r.1 (.ptrs mirror)
    { st with
        fs := fs4
        file :=
          { st.file with
              indirect_block := (r.1 : ℤ)
              size := st.file.size + chunk.length }
        total_blocks := st.total_blocks + 1
        indirect_count := st.indirect_count + 1 }
  else
    -- double indirect block territory
    let rd : ℕ × FS × List ℕ :=
      if st.file.double_indirect_block = -1 then
        let b := allocate_block fs2
        (b.1, write_block b.2 b.1 (.ptrs (List.replicate PTRS_PER_BLOCK 0)),
         List.replicate PTRS_PER_BLOCK 0)
      else
        (st.file.double_indirect_block.toNat, fs2,
         readPtrs fs2 st.file.double_indirect_block.toNat)
    let rl : ℕ × FS × List ℕ × ℕ :=
      if PTRS_PER_BLOCK ≤ st.level2 ∨ rd.2.2.getD st.level1 0 = 0 then
        let b := allocate_block rd.2.1
        (st.level1 + 1,
         write_block b.2 b.1 (.ptrs (List.replicate PTRS_PER_BLOCK 0)),
         rd.2.2.set st.level1 b.1, 0)
      else
        (st.level1, rd.2.1, rd.2.2, st.level2)
    let l1id := rl.2.2.1.getD (rl.1 - 1) 0
    let l1data := (readPtrs rl.2.1 l1id).set rl.2.2.2 block_id
    let fs6 := write_block rl.2.1 l1id (.ptrs l1data)
    let fs7 := write_block fs6 rd.1 (.ptrs rl.2.2.1)
    { st with
        fs := fs7
        file :=
          { st.file with
              double_indirect_block := (rd.1 : ℤ)
              size := st.file.size + chunk.length }
        total_blocks := st.total_blocks + 1
        level1 := rl.1
        level2 := rl.2.2.2 + 1 }

/-- Structural worker for `chunksOf`: the fuel only bounds the number of
chunks (each chunk consumes at least one byte, so `l.length` is always
enough). -/
def chunksGo : ℕ → List ℕ → List (List ℕ)
  | 0, _ => []
  | fuel + 1, l =>
      if l = [] then []
      else l.take BLOCK_SIZE :: chunksGo fuel (l.drop BLOCK_SIZE)

/-- The chunks `fread` yields: full `BLOCK_SIZE` chunks and a final short
one; an empty source yields no chunks. -/
def chunksOf (l : List ℕ) : List (List ℕ) := chunksGo l.length l

/-- The whole copy loop. -/
def exfs2AddContentLoop (chunks : List (List ℕ)) (st : AddLoopState) : AddLoopState :=
  chunks.foldl addLoopStep st

/-- The loop state at entry of the copy loop, for a freshly initialised file
inode. -/
def initLoopState (fs : FS) : AddLoopState :=
  { fs := fs, file := freshFileInode, total_blocks := 0
    indirect_count := 0, level1 := 0, level2 := 0 }

/-! ## `exfs2_add` -/

/-- The distinguishable outcomes (stdout/stderr diagnostics) of
`exfs2_add`. -/
inductive AddResult where
  | ok
  | invalidPath
  | rootReadFail
  | readFail
  | notADirectory
  | addEntryFail
  | fileExists
  | localOpenFail
deriving DecidableEq

/-- The intermediate-directory walk of `exfs2_add` over components
`0 .. num_parts-2`: resolve each component, creating a missing directory
(allocate an inode, write a fresh directory record, link it into the
current directory) and rejecting non-directories. -/
def addWalk (fs : FS) (curNum : ℕ) (cur : Inode) :
    List Name → FS × Except AddResult (ℕ × Inode)
  | [] => (fs, .ok (curNum, cur))
  | p :: rest =>
      let nxt := find_entry_in_dir fs cur p
      if nxt = -1 then
        let a := allocate_inode fs
        let fs2 := write_inode a.2 a.1 freshDirInode
        let r := add_entry_to_dir fs2 cur curNum p (a.1 : ℤ)
        if r.status = 0 then addWalk r.fs a.1 freshDirInode rest
        else (r.fs, .error .addEntryFail)
      else
        match read_inode fs nxt.toNat with
        | none => (fs, .error .readFail)
        | some nx =>
            if nx.type = 2 then addWalk fs nxt.toNat nx rest
            else (fs, .error .notADirectory)

/-- `exfs2_add`.  `local_file` is `none` when the local file cannot be
opened (the C code then returns with the file inode already allocated), and
`some bytes` its content otherwise. -/
def exfs2_add (fs : FS) (path : List Char) (local_file : Option (List ℕ)) :
    FS × AddResult :=
  let parts := split_path path
  if h : parts = [] then (fs, .invalidPath)
  else
    match read_inode fs 0 with
    | none => (fs, .rootReadFail)
    | some root =>
        match addWalk fs 0 root parts.dropLast with
        | (fs1, .error e) => (fs1, e)
        | (fs1, .ok (pnum, pino)) =>
            let filename := parts.getLast h
            if find_entry_in_dir fs1 pino filename ≠ -1 then (fs1, .fileExists)
            else
              let a := allocate_inode fs1
              match local_file with
              | none => (a.2, .localOpenFail)
              | some bytes =>
                  let stf := exfs2AddContentLoop (chunksOf bytes) (initLoopState a.2)
                  let fs3 := write_inode stf.fs a.1 stf.file
                  let r := add_entry_to_dir fs3 pino pnum filename (a.1 : ℤ)
                  if r.status = 0 then (r.fs, .ok) else (r.fs, .addEntryFail)

/-! ## `exfs2_remove` -/

/-- `exfs2_remove_recursive`, with an explicit recursion-depth fuel (the C
function recurses on the directory tree; any terminating execution is some
fuel instance).  For a file: free the live direct blocks, then the non-zero
leading entries of the single-indirect block and the indirect block itself;
finally free the inode.  Double/triple-indirect structures are not walked.
For a directory: recurse on every live entry of every direct block, free
each directory block, then free the inode. -/
def exfs2_remove_recursive : ℕ → FS → ℕ → FS
  | 0, fs, _ => fs
  | fuel + 1, fs, inode_num =>
      match read_inode fs inode_num with
      | none => fs
      | some ino =>
          if ino.type = 1 then
            let fs1 := (ino.direct_blocks.take ino.num_direct).foldl free_block fs
            let fs2 :=
              if ino.indirect_block = -1 then fs1
              else
                let l := readPtrs fs1 ino.indirect_block.toNat
                let fs' := (l.takeWhile (· ≠ 0)).foldl free_block fs1
                free_block fs' ino.indirect_block.toNat
            free_inode fs2 inode_num
          else if ino.type = 2 then
            let fs1 := (ino.direct_blocks.take ino.num_direct).foldl
              (fun acc bid =>
                match load_directory_entries acc bid with
                | none => acc
                | some es =>
                    free_block
                      (es.foldl
                        (fun a e =>
                          if e.inode_num ≠ -1 then
                            exfs2_remove_recursive fuel a e.inode_num.toNat
                          else a)
                        acc)
                      bid)
              fs
            free_inode fs1 inode_num
          else fs

/-- The parent walk of `exfs2_remove` (components `0 .. num_parts-2`); pure
reads.  `find_entry_in_dir` itself rejects non-directories. -/
def removeWalk (fs : FS) (cur : Inode) : List Name → Option Inode
  | [] => some cur
  | p :: rest =>
      let nxt := find_entry_in_dir fs cur p
      if nxt = -1 then none
      else
        match read_inode fs nxt.toNat with
        | none => none
        | some nx => removeWalk fs nx rest

/-- The final pass of `exfs2_remove`: in each direct block of the (stale)
parent, clear the first entry whose `inode_num` equals the target (set it to
`-1`, zero the name) and persist the block. -/
def clear_entry_in_blocks (fs : FS) (blockIds : List ℕ) (target : ℤ) : FS :=
  blockIds.foldl
    (fun acc bid =>
      match load_directory_entries acc bid with
      | none => acc
      | some es =>
          match es.findIdx? (fun e => e.inode_num = target) with
          | none => acc
          | some j =>
              save_directory_entries acc bid (es.set j { name := [], inode_num := -1 }))
    fs

/-- `exfs2_remove`. -/
def exfs2_remove (fuel : ℕ) (fs : FS) (path : List Char) : FS :=
  let parts := split_path path
  if h : parts = [] then fs
  else
    match read_inode fs 0 with
    | none => fs
    | some root =>
        match removeWalk fs root parts.dropLast with
        | none => fs
        | some parent =>
            let target := find_entry_in_dir fs parent (parts.getLast h)
            if target = -1 then fs
            else
              let fs1 := exfs2_remove_recursive fuel fs target.toNat
              clear_entry_in_blocks fs1 (parent.direct_blocks.take parent.num_direct) target

/-! ## The fresh filesystem and reachability -/

/-- The zero-filled content of a fresh data block. -/
def zeroBlock : BlockData := .bytes (List.replicate BLOCK_SIZE 0)

/-- The state `init_fs` leaves behind in a fresh working directory: inode
segment 0 with the root directory allocated at slot 0, and an empty data
segment 0. -/
def freshFS : FS :=
  { ibm := true :: List.replicate (NUM_INODES_PER_SEGMENT - 1) false
    inodes := freshDirInode :: List.replicate (NUM_INODES_PER_SEGMENT - 1) zeroInode
    dbm := List.replicate BLOCKS_PER_SEGMENT false
    disk := List.replicate BLOCKS_PER_SEGMENT zeroBlock }

/-- Filesystem states reachable by sequences of the public mutating
operations from a fresh filesystem.  `exfs2_list`, `exfs2_extract` and
`exfs2_debug` only read the state and therefore need no step. -/
inductive Reach : FS → Prop
  | fresh : Reach freshFS
  | add (fs : FS) (path : List Char) (local_file : Option (List ℕ)) :
      Reach fs → Reach (exfs2_add fs path local_file).1
  | remove (fs : FS) (fuel : ℕ) (path : List Char) :
      Reach fs → Reach (exfs2_remove fuel fs path)

/-! ## The segment-structured inode allocator (claim C6) -/

/-- The bitmap of a freshly created inode segment: zero-filled, except that
creating inode segment 0 also initialises the root directory by setting
bit 0. -/
def create_inode_bitmap (segment_number : ℕ) : List Bool :=
  if segment_number = 0 then (List.replicate (8 * BLOCK_SIZE) false).set 0 true
  else List.replicate (8 * BLOCK_SIZE) false

/-- The `while (1)` loop of `allocate_inode`, verbatim over the list of
existing inode-segment bitmaps, starting at segment `idx`: open-or-create
the segment, find the lowest free bit among the first
`NUM_INODES_PER_SEGMENT`; if found, set and persist it and return the
global inode number, else move to the next segment.  The loop always
terminates because a freshly created segment always offers a free bit, so
it stops at the first absent segment at the latest; the `none` fallback in
the creation case is dead code (see `allocate_inode_segs_spec`). -/
def allocate_inode_segs : ℕ → List (List Bool) → ℕ × List (List Bool)
  | idx, [] =>
      let bm := create_inode_bitmap idx
      match find_free_bit bm NUM_INODES_PER_SEGMENT with
      | some slot => (idx * NUM_INODES_PER_SEGMENT + slot, [bm.set slot true])
      | none => (0, [bm])
  | idx, bm :: rest =>
      match find_free_bit bm NUM_INODES_PER_SEGMENT with
      | some slot => (idx * NUM_INODES_PER_SEGMENT + slot, (bm.set slot true) :: rest)
      | none =>
          let r := allocate_inode_segs (idx + 1) rest
          (r.1, bm :: r.2)

/-- `allocate_inode` over the segment store: scan from segment 0. -/
def allocate_inode_model (segs : List (List Bool)) : ℕ × List (List Bool) :=
  allocate_inode_segs 0 segs

/-! ## Specification of `find_free_bit` -/

theorem NUM_INODES_PER_SEGMENT_eq : NUM_INODES_PER_SEGMENT = 254 := by
  norm_num [NUM_INODES_PER_SEGMENT, SEGMENT_SIZE, BLOCK_SIZE, SIZEOF_INODE]

theorem BLOCKS_PER_SEGMENT_eq : BLOCKS_PER_SEGMENT = 255 := by
  norm_num [BLOCKS_PER_SEGMENT, SEGMENT_SIZE, BLOCK_SIZE]

theorem DIR_ENTRIES_PER_BLOCK_eq : DIR_ENTRIES_PER_BLOCK = 15 := by
  norm_num [DIR_ENTRIES_PER_BLOCK, BLOCK_SIZE, SIZEOF_DIR_ENTRY]

theorem PTRS_PER_BLOCK_eq : PTRS_PER_BLOCK = 1024 := by
  norm_num [PTRS_PER_BLOCK, BLOCK_SIZE, SIZEOF_INT]

/-- A successful `find_free_bit` returns the lowest clear bit below
`num_bits`. -/
theorem find_free_bit_spec (bm : List Bool) (n i : ℕ)
    (h : find_free_bit bm n = some i) :
    i < n ∧ bm.getD i false = false ∧ ∀ j, j < i → bm.getD j false = true := by
  induction bm generalizing n i with
  | nil =>
    cases n with
    | zero => simp [find_free_bit] at h
    | succ m =>
      simp only [find_free_bit, Option.some.injEq] at h
      subst h
      exact ⟨Nat.succ_pos m, by simp, fun j hj => absurd hj (Nat.not_lt_zero j)⟩
  | cons b rest ih =>
    cases n with
    | zero => simp [find_free_bit] at h
    | succ m =>
      cases b with
      | false =>
        simp only [find_free_bit, Option.some.injEq] at h
        subst h
        exact ⟨Nat.succ_pos m, by simp, fun j hj => absurd hj (Nat.not_lt_zero j)⟩
      | true =>
        simp only [find_free_bit, Option.map_eq_some'] at h
        obtain ⟨a, ha, rfl⟩ := h
        obtain ⟨h1, h2, h3⟩ := ih m a ha
        refine ⟨by omega, by simpa using h2, ?_⟩
        intro j hj
        cases j with
        | zero => simp
        | succ k => simpa using h3 k (by omega)

/-- A failing `find_free_bit` means every bit below `num_bits` is set. -/
theorem find_free_bit_none (bm : List Bool) (n : ℕ)
    (h : find_free_bit bm n = none) :
    ∀ j, j < n → bm.getD j false = true := by
  induction bm generalizing n with
  | nil =>
    cases n with
    | zero => intro j hj; omega
    | succ m => simp [find_free_bit] at h
  | cons b rest ih =>
    cases n with
    | zero => intro j hj; omega
    | succ m =>
      cases b with
      | false => simp [find_free_bit] at h
      | true =>
        simp only [find_free_bit, Option.map_eq_none'] at h
        intro j hj
        cases j with
        | zero => simp
        | succ k => simpa using ih m h k (by omega)

/-! ## General list helpers -/

theorem set_append_len {α : Type} (l1 l2 : List α) (b : α) :
    (l1 ++ l2).set l1.length b = l1 ++ l2.set 0 b := by
  induction l1 with
  | nil => simp
  | cons a t ih => simp [ih]

theorem replicate_set_zero {α : Type} (n : ℕ) (hn : 1 ≤ n) (a b : α) :
    (List.replicate n a).set 0 b = b :: List.replicate (n - 1) a := by
  cases n with
  | zero => omega
  | succ m => simp [List.replicate_succ]

theorem getD_true_lt {bm : List Bool} {i : ℕ} (h : bm.getD i false = true) :
    i < bm.length := by
  by_contra hc
  rw [List.getD_eq_getElem?_getD, List.getElem?_eq_none (by omega)] at h
  simp at h

theorem getD_set_self_of_lt (bm : List Bool) (i : ℕ) (v : Bool) (h : i < bm.length) :
    (bm.set i v).getD i false = v := by
  rw [List.getD_eq_getElem?_getD, List.getElem?_set_self (by omega)]
  rfl

theorem getD_set_false (bm : List Bool) (i : ℕ) :
    (bm.set i false).getD i false = false := by
  by_cases h : i < bm.length
  · exact getD_set_self_of_lt bm i false h
  · rw [List.set_eq_of_length_le (by omega), List.getD_eq_getElem?_getD,
      List.getElem?_eq_none (by omega)]
    rfl

theorem getD_set_ne (bm : List Bool) {i j : ℕ} (v : Bool) (h : j ≠ i) :
    (bm.set i v).getD j false = bm.getD j false := by
  rw [List.getD_eq_getElem?_getD, List.getD_eq_getElem?_getD,
    List.getElem?_set_ne (Ne.symm h)]

theorem getD_append_single (bm : List Bool) (v : Bool) (j : ℕ) :
    (bm ++ [v]).getD j false = if j = bm.length then v else bm.getD j false := by
  by_cases h : j = bm.length
  · subst h; simp
  · rw [if_neg h, List.getD_eq_getElem?_getD, List.getD_eq_getElem?_getD]
    by_cases hlt : j < bm.length
    · rw [List.getElem?_append_left hlt]
    · rw [List.getElem?_eq_none (l := bm) (by omega),
        List.getElem?_eq_none (by simp; omega)]

/-! ## Primitive operation lemmas -/

theorem write_block_dbm (fs : FS) (id : ℕ) (b : BlockData) :
    (write_block fs id b).dbm = fs.dbm := rfl

theorem write_block_ibm (fs : FS) (id : ℕ) (b : BlockData) :
    (write_block fs id b).ibm = fs.ibm := rfl

theorem write_block_inodes (fs : FS) (id : ℕ) (b : BlockData) :
    (write_block fs id b).inodes = fs.inodes := rfl

theorem write_block_disk_length (fs : FS) (id : ℕ) (b : BlockData) :
    (write_block fs id b).disk.length = fs.disk.length := by
  simp [write_block]

theorem write_block_get_self (fs : FS) (id : ℕ) (b : BlockData)
    (h : id < fs.disk.length) :
    (write_block fs id b).disk[id]? = some b := by
  simp [write_block, List.getElem?_set_self h]

theorem write_block_get_ne (fs : FS) (id x : ℕ) (b : BlockData) (h : x ≠ id) :
    (write_block fs id b).disk[x]? = fs.disk[x]? := by
  simp [write_block, List.getElem?_set_ne (Ne.symm h)]

theorem free_block_disk (fs : FS) (id : ℕ) : (free_block fs id).disk = fs.disk := rfl

theorem free_block_ibm (fs : FS) (id : ℕ) : (free_block fs id).ibm = fs.ibm := rfl

theorem free_block_inodes (fs : FS) (id : ℕ) : (free_block fs id).inodes = fs.inodes := rfl

theorem free_inode_disk (fs : FS) (n : ℕ) : (free_inode fs n).disk = fs.disk := rfl

theorem free_inode_dbm (fs : FS) (n : ℕ) : (free_inode fs n).dbm = fs.dbm := rfl

theorem free_inode_inodes (fs : FS) (n : ℕ) : (free_inode fs n).inodes = fs.inodes := rfl

theorem write_inode_disk (fs : FS) (n : ℕ) (ino : Inode) :
    (write_inode fs n ino).disk = fs.disk := rfl

theorem write_inode_dbm (fs : FS) (n : ℕ) (ino : Inode) :
    (write_inode fs n ino).dbm = fs.dbm := rfl

theorem write_inode_ibm (fs : FS) (n : ℕ) (ino : Inode) :
    (write_inode fs n ino).ibm = fs.ibm := rfl

/-- Clearing bits with `free_block` over a list: a bit ends clear exactly
when its id is in the list, and is untouched otherwise. -/
theorem foldl_free_block_getD (l : List ℕ) (fs : FS) (x : ℕ) :
    (l.foldl free_block fs).dbm.getD x false =
      if x ∈ l then false else fs.dbm.getD x false := by
  induction l generalizing fs with
  | nil => simp
  | cons a t ih =>
    simp only [List.foldl_cons, ih, List.mem_cons]
    by_cases hx : x ∈ t
    · simp [hx]
    · by_cases hxa : x = a
      · subst hxa
        rw [if_neg hx, if_pos (Or.inl rfl)]
        exact getD_set_false fs.dbm x
      · rw [if_neg hx, if_neg (by tauto)]
        exact getD_set_ne fs.dbm false hxa

theorem foldl_free_block_disk (l : List ℕ) (fs : FS) :
    (l.foldl free_block fs).disk = fs.disk := by
  induction l generalizing fs with
  | nil => rfl
  | cons a t ih => simp [List.foldl_cons, ih, free_block_disk]

theorem foldl_free_block_ibm (l : List ℕ) (fs : FS) :
    (l.foldl free_block fs).ibm = fs.ibm := by
  induction l generalizing fs with
  | nil => rfl
  | cons a t ih => simp [List.foldl_cons, ih, free_block_ibm]

theorem foldl_free_block_inodes (l : List ℕ) (fs : FS) :
    (l.foldl free_block fs).inodes = fs.inodes := by
  induction l generalizing fs with
  | nil => rfl
  | cons a t ih => simp [List.foldl_cons, ih, free_block_inodes]

/-- The id returned by `allocate_block` had a clear bit. -/
theorem allocate_block_fresh_bit (fs : FS) :
    fs.dbm.getD (allocate_block fs).1 false = false := by
  unfold allocate_block
  rcases h : find_free_bit fs.dbm fs.dbm.length with _ | i
  · simp only
    rw [List.getD_eq_getElem?_getD, List.getElem?_eq_none (le_refl _)]
    rfl
  · simpa using (find_free_bit_spec _ _ _ h).2.1

/-- `allocate_block` sets the returned id's bit. -/
theorem allocate_block_bit_self (fs : FS) :
    (allocate_block fs).2.dbm.getD (allocate_block fs).1 false = true := by
  unfold allocate_block
  rcases h : find_free_bit fs.dbm fs.dbm.length with _ | i
  · simpa using getD_append_single fs.dbm true fs.dbm.length
  · exact getD_set_self_of_lt _ _ _ (find_free_bit_spec _ _ _ h).1

/-- `allocate_block` never clears a set bit. -/
theorem allocate_block_bit_mono (fs : FS) {x : ℕ}
    (h : fs.dbm.getD x false = true) :
    (allocate_block fs).2.dbm.getD x false = true := by
  unfold allocate_block
  rcases hf : find_free_bit fs.dbm fs.dbm.length with _ | i
  · rw [getD_append_single]
    by_cases hx : x = fs.dbm.length
    · rw [if_pos hx]
    · rwa [if_neg hx]
  · by_cases hx : x = i
    · subst hx
      exact getD_set_self_of_lt _ _ _ (find_free_bit_spec _ _ _ hf).1
    · rwa [getD_set_ne _ _ hx]

/-- Bit 0 is always set right after an allocation (if it was clear, it was
the lowest free bit and was just taken). -/
theorem allocate_block_bit0 (fs : FS) :
    (allocate_block fs).2.dbm.getD 0 false = true := by
  by_cases h : fs.dbm.getD 0 false = true
  · exact allocate_block_bit_mono fs h
  · have h0 : fs.dbm.getD 0 false = false := by
      cases hv : fs.dbm.getD 0 false
      · rfl
      · exact absurd hv h
    unfold allocate_block
    rcases hf : find_free_bit fs.dbm fs.dbm.length with _ | i
    · rcases hbm : fs.dbm with _ | ⟨b, t⟩
      · simp [hbm]
      · exfalso
        have := find_free_bit_none _ _ hf 0 (by simp [hbm])
        rw [h0] at this
        exact Bool.false_ne_true this
    · have hi : i = 0 := by
        obtain ⟨h1, h2, h3⟩ := find_free_bit_spec _ _ _ hf
        by_contra hne
        have := h3 0 (by omega)
        rw [h0] at this
        exact Bool.false_ne_true this
      subst hi
      exact getD_set_self_of_lt _ _ _ (find_free_bit_spec _ _ _ hf).1

/-- The allocated id is distinct from any id whose bit is set. -/
theorem allocate_block_ne (fs : FS) {x : ℕ} (h : fs.dbm.getD x false = true) :
    (allocate_block fs).1 ≠ x := by
  intro he
  rw [← he, allocate_block_fresh_bit fs] at h
  exact Bool.false_ne_true h

/-- The allocated id is in bounds of the (possibly extended) stores. -/
theorem allocate_block_lt (fs : FS) :
    (allocate_block fs).1 < (allocate_block fs).2.dbm.length := by
  unfold allocate_block
  rcases h : find_free_bit fs.dbm fs.dbm.length with _ | i
  · simp
  · simpa using (find_free_bit_spec _ _ _ h).1

theorem allocate_block_len (fs : FS) (h : fs.disk.length = fs.dbm.length) :
    (allocate_block fs).2.disk.length = (allocate_block fs).2.dbm.length := by
  unfold allocate_block
  rcases hf : find_free_bit fs.dbm fs.dbm.length with _ | i
  · simp [h]
  · simp [h]

/-- Allocation does not change any existing block's content (a set bit means
the id is within the existing, unextended range). -/
theorem allocate_block_get (fs : FS) {x : ℕ}
    (hlen : fs.disk.length = fs.dbm.length) (hx : fs.dbm.getD x false = true) :
    (allocate_block fs).2.disk[x]? = fs.disk[x]? := by
  unfold allocate_block
  rcases hf : find_free_bit fs.dbm fs.dbm.length with _ | i
  · have : x < fs.disk.length := hlen ▸ getD_true_lt hx
    simp [List.getElem?_append_left this]
  · rfl

theorem allocate_block_ibm (fs : FS) : (allocate_block fs).2.ibm = fs.ibm := by
  unfold allocate_block
  rcases find_free_bit fs.dbm fs.dbm.length with _ | i <;> rfl

theorem allocate_block_inodes (fs : FS) : (allocate_block fs).2.inodes = fs.inodes := by
  unfold allocate_block
  rcases find_free_bit fs.dbm fs.dbm.length with _ | i <;> rfl

theorem allocate_inode_dbm (fs : FS) : (allocate_inode fs).2.dbm = fs.dbm := by
  unfold allocate_inode
  rcases find_free_bit fs.ibm fs.ibm.length with _ | i <;> rfl

theorem allocate_inode_disk (fs : FS) : (allocate_inode fs).2.disk = fs.disk := by
  unfold allocate_inode
  rcases find_free_bit fs.ibm fs.ibm.length with _ | i <;> rfl

/-! ## Claim C6: the inode allocator -/

/-- A freshly created inode segment always offers a free slot: slot 1 for
segment 0 (the root holds slot 0), slot 0 otherwise.  This is why the
allocation loop always terminates once it reaches an absent segment. -/
theorem create_inode_bitmap_has_free (idx : ℕ) :
    find_free_bit (create_inode_bitmap idx) NUM_INODES_PER_SEGMENT =
      some (if idx = 0 then 1 else 0) := by
  by_cases h : idx = 0
  · subst h
    simp only [create_inode_bitmap, if_pos rfl, NUM_INODES_PER_SEGMENT_eq]
    rfl
  · simp only [create_inode_bitmap, if_neg h, NUM_INODES_PER_SEGMENT_eq]
    rfl

/-- Characterisation of the segment-scanning loop from an arbitrary start
segment `idx`. -/
theorem allocate_inode_segs_spec (segs : List (List Bool)) (idx : ℕ) :
    ∃ k slot,
      k ≤ segs.length ∧
      (allocate_inode_segs idx segs).1 = (idx + k) * NUM_INODES_PER_SEGMENT + slot ∧
      (∀ j, j < k → find_free_bit (segs.getD j []) NUM_INODES_PER_SEGMENT = none) ∧
      find_free_bit (segs.getD k (create_inode_bitmap (idx + k))) NUM_INODES_PER_SEGMENT
        = some slot ∧
      (allocate_inode_segs idx segs).2 =
        segs.take k ++
          ((segs.getD k (create_inode_bitmap (idx + k))).set slot true) :: segs.drop (k + 1) := by
  induction segs generalizing idx with
  | nil =>
    refine ⟨0, if idx = 0 then 1 else 0, le_refl 0, ?_, ?_, ?_, ?_⟩
    · simp [allocate_inode_segs, create_inode_bitmap_has_free]
    · intro j hj; omega
    · simpa using create_inode_bitmap_has_free idx
    · simp [allocate_inode_segs, create_inode_bitmap_has_free]
  | cons bm rest ih =>
    rcases hf : find_free_bit bm NUM_INODES_PER_SEGMENT with _ | slot
    · -- this segment is full: recurse
      obtain ⟨k, slot, hk, h1, h2, h3, h4⟩ := ih (idx + 1)
      refine ⟨k + 1, slot, by simpa using Nat.succ_le_succ hk, ?_, ?_, ?_, ?_⟩
      · simp only [allocate_inode_segs, hf]
        rw [h1]; ring_nf
      · intro j hj
        cases j with
        | zero => simpa using hf
        | succ j' => simpa using h2 j' (by omega)
      · have : idx + 1 + k = idx + (k + 1) := by omega
        simpa [this] using h3
      · simp only [allocate_inode_segs, hf]
        have : idx + 1 + k = idx + (k + 1) := by omega
        rw [h4, this]
        simp
    · -- free slot in this segment
      refine ⟨0, slot, Nat.zero_le _, ?_, ?_, ?_, ?_⟩
      · simp [allocate_inode_segs, hf]
      · intro j hj; omega
      · simpa using hf
      · simp [allocate_inode_segs, hf]

/-- Claim C6.  `allocate_inode` scans inode segments in ascending order
starting at segment 0, creating a segment when one is absent (`k` may equal
`segs.length`, in which case the consulted bitmap is the freshly created
one); in the first segment whose bitmap has a clear bit below
`records_per_segment` it takes the lowest such bit, persists the updated
bitmap, and returns `segment_index * records_per_segment + slot_index`.
The scan always succeeds: the existential is unconditional, because a
freshly created segment always offers a free bit
(`create_inode_bitmap_has_free`). -/
theorem allocate_inode_scans_segments_first_fit (segs : List (List Bool)) :
    ∃ k slot,
      k ≤ segs.length ∧
      slot < NUM_INODES_PER_SEGMENT ∧
      (allocate_inode_model segs).1 = k * NUM_INODES_PER_SEGMENT + slot ∧
      (∀ j, j < k → find_free_bit (segs.getD j []) NUM_INODES_PER_SEGMENT = none) ∧
      (segs.getD k (create_inode_bitmap k)).getD slot false = false ∧
      (∀ i, i < slot → (segs.getD k (create_inode_bitmap k)).getD i false = true) ∧
      (allocate_inode_model segs).2 =
        segs.take k ++
          ((segs.getD k (create_inode_bitmap k)).set slot true) :: segs.drop (k + 1) := by
  obtain ⟨k, slot, hk, h1, h2, h3, h4⟩ := allocate_inode_segs_spec segs 0
  simp only [Nat.zero_add] at h1 h3 h4
  obtain ⟨hs1, hs2, hs3⟩ := find_free_bit_spec _ _ _ h3
  exact ⟨k, slot, hk, hs1, h1, h2, hs2, hs3, h4⟩

/-! ## Claim C3: directory-block capacity -/

/-- A sequence of `add_entry_to_dir` calls on the same directory, threading
the filesystem and the caller's in-memory directory inode exactly as the
path-walk code does. -/
def addMany (fs : FS) (dir : Inode) (dir_inode_num : ℕ) :
    List (Name × ℤ) → FS × Inode
  | [] => (fs, dir)
  | (nm, c) :: rest =>
      let r := add_entry_to_dir fs dir dir_inode_num nm c
      addMany r.fs r.dir dir_inode_num rest

def entryOf (p : Name × ℤ) : DirEntry := ⟨p.1, p.2⟩

/-- State of a directory that has received `done` entries (`1 ≤ |done| ≤
15`, all in its single direct block `b`, in insertion order, followed by
free slots). -/
def AddManyInv (done : List (Name × ℤ)) (fs : FS) (dir : Inode) : Prop :=
  ∃ b : ℕ,
    dir.type = 2 ∧
    dir.num_direct = 1 ∧
    dir.size = BLOCK_SIZE ∧
    dir.direct_blocks.take dir.num_direct = [b] ∧
    fs.dbm.getD b false = true ∧
    fs.disk[b]? = some (.entries (done.map entryOf ++
      List.replicate (DIR_ENTRIES_PER_BLOCK - done.length) freeDirEntry)) ∧
    fs.disk.length = fs.dbm.length

theorem findEntry_none_of (es : List DirEntry) (nm : Name)
    (h : ∀ e ∈ es, e.inode_num = -1 ∨ ¬ e.name = nm) :
    findEntry es nm = none := by
  rw [findEntry, List.find?_eq_none]
  intro e he
  rcases h e he with h1 | h1 <;> simp [h1]

theorem freeSlotIdx_live_append (live : List DirEntry) (m : ℕ) (hm : 1 ≤ m)
    (hl : ∀ e ∈ live, e.inode_num ≠ -1) :
    freeSlotIdx (live ++ List.replicate m freeDirEntry) = some live.length := by
  rw [freeSlotIdx, List.findIdx?_append]
  have h1 : live.findIdx? (fun e => e.inode_num = -1) = none := by
    rw [List.findIdx?_eq_none_iff]
    intro e he
    simpa using hl e he
  have h2 : (List.replicate m freeDirEntry).findIdx? (fun e => e.inode_num = -1)
      = some 0 := by
    cases m with
    | zero => omega
    | succ k =>
      rw [List.replicate_succ, List.findIdx?_cons]
      simp [freeDirEntry]
  rw [h1, h2]
  simp

theorem freeSlotIdx_none (live : List DirEntry)
    (hl : ∀ e ∈ live, e.inode_num ≠ -1) :
    freeSlotIdx live = none := by
  rw [freeSlotIdx, List.findIdx?_eq_none_iff]
  intro e he
  simpa using hl e he

/-- Under the invariant, looking up a name absent from the block fails. -/
theorem find_entry_inv_none (done : List (Name × ℤ)) (fs : FS) (dir : Inode)
    (hinv : AddManyInv done fs dir) (nm : Name)
    (hnm : ∀ p ∈ done, p.1 ≠ nm) :
    find_entry_in_dir fs dir nm = -1 := by
  obtain ⟨b, ht, hnd, hsz, htake, hbit, hget, hlen⟩ := hinv
  rw [find_entry_in_dir, if_neg (by simp [ht]), htake]
  have hload : load_directory_entries fs b =
      some (done.map entryOf ++
        List.replicate (DIR_ENTRIES_PER_BLOCK - done.length) freeDirEntry) := by
    rw [load_directory_entries, hget]
  have hfe : findEntry (done.map entryOf ++
      List.replicate (DIR_ENTRIES_PER_BLOCK - done.length) freeDirEntry) nm = none := by
    apply findEntry_none_of
    intro e he
    rcases List.mem_append.mp he with h | h
    · obtain ⟨p, hp, rfl⟩ := List.mem_map.mp h
      exact Or.inr (by simpa [entryOf] using hnm p hp)
    · left
      have : e = freeDirEntry := List.eq_of_mem_replicate h
      simp [this, freeDirEntry]
  simp [find_entry_blocks, hload, hfe]

/-- One `add_entry_to_dir` on a block with a free slot appends the entry to
the block, leaving the inode untouched. -/
theorem add_entry_step (fs : FS) (dir : Inode) (dn : ℕ)
    (done : List (Name × ℤ)) (nm : Name) (c : ℤ)
    (hinv : AddManyInv done fs dir)
    (hk1 : 1 ≤ done.length) (hk : done.length < DIR_ENTRIES_PER_BLOCK)
    (hnm : ∀ p ∈ done, p.1 ≠ nm)
    (hnmlen : nm.length ≤ MAX_FILENAME - 1)
    (hlive : ∀ p ∈ done, p.2 ≠ -1) :
    (add_entry_to_dir fs dir dn nm c).dir = dir ∧
    AddManyInv (done ++ [(nm, c)]) (add_entry_to_dir fs dir dn nm c).fs dir := by
  obtain ⟨b, ht, hnd, hsz, htake, hbit, hget, hlen⟩ := hinv
  have hfind := find_entry_inv_none done fs dir ⟨b, ht, hnd, hsz, htake, hbit, hget, hlen⟩ nm hnm
  have hload : load_directory_entries fs b =
      some (done.map entryOf ++
        List.replicate (DIR_ENTRIES_PER_BLOCK - done.length) freeDirEntry) := by
    rw [load_directory_entries, hget]
  have hliveE : ∀ e ∈ done.map entryOf, e.inode_num ≠ -1 := by
    intro e he
    obtain ⟨p, hp, rfl⟩ := List.mem_map.mp he
    simpa [entryOf] using hlive p hp
  have hslot : freeSlotIdx (done.map entryOf ++
      List.replicate (DIR_ENTRIES_PER_BLOCK - done.length) freeDirEntry)
      = some (done.map entryOf).length :=
    freeSlotIdx_live_append _ _ (by omega) hliveE
  have hblocks : add_entry_blocks fs nm c (dir.direct_blocks.take dir.num_direct) =
      some (save_directory_entries fs b
        ((done.map entryOf ++
          List.replicate (DIR_ENTRIES_PER_BLOCK - done.length) freeDirEntry).set
          (done.map entryOf).length
          { name := nm.take (MAX_FILENAME - 1), inode_num := c })) := by
    rw [htake]
    simp [add_entry_blocks, hload, hslot]
  have hb_lt : b < fs.disk.length := hlen ▸ getD_true_lt hbit
  have hset : (done.map entryOf ++
        List.replicate (DIR_ENTRIES_PER_BLOCK - done.length) freeDirEntry).set
        (done.map entryOf).length
        { name := nm.take (MAX_FILENAME - 1), inode_num := c }
      = (done ++ [(nm, c)]).map entryOf ++
        List.replicate (DIR_ENTRIES_PER_BLOCK - (done ++ [(nm, c)]).length) freeDirEntry := by
    have hname : nm.take (MAX_FILENAME - 1) = nm := List.take_of_length_le hnmlen
    rw [set_append_len, replicate_set_zero _ (by omega), List.map_append]
    simp only [List.map_cons, List.map_nil, entryOf, hname, List.length_append,
      List.length_singleton, List.length_map]
    rw [List.append_cons]
    have harith : DIR_ENTRIES_PER_BLOCK - done.length - 1
        = DIR_ENTRIES_PER_BLOCK - (done.length + 1) := by omega
    rw [harith]
  constructor
  · rw [add_entry_to_dir, if_neg (by simp [ht]), if_neg (by simp [hfind]), hblocks]
  · rw [add_entry_to_dir, if_neg (by simp [ht]), if_neg (by simp [hfind]), hblocks]
    refine ⟨b, ht, hnd, hsz, htake, ?_, ?_, ?_⟩
    · simpa [save_directory_entries, write_block_dbm] using hbit
    · rw [save_directory_entries]
      rw [write_block_get_self _ _ _ hb_lt, hset]
    · simp [save_directory_entries, write_block, hlen]

/-- The first `add_entry_to_dir` on a fresh directory allocates its first
block and installs the entry at slot 0. -/
theorem add_entry_first (fs : FS) (dn : ℕ) (nm : Name) (c : ℤ)
    (hnmlen : nm.length ≤ MAX_FILENAME - 1)
    (hlen : fs.disk.length = fs.dbm.length) :
    AddManyInv [(nm, c)] (add_entry_to_dir fs freshDirInode dn nm c).fs
      (add_entry_to_dir fs freshDirInode dn nm c).dir := by
  have hfind : find_entry_in_dir fs freshDirInode nm = -1 := by
    rw [find_entry_in_dir, if_neg (by simp [freshDirInode])]
    simp [freshDirInode, find_entry_blocks]
  have hblocks : add_entry_blocks fs nm c
      (freshDirInode.direct_blocks.take freshDirInode.num_direct) = none := by
    simp [freshDirInode, add_entry_blocks]
  rw [add_entry_to_dir, if_neg (by simp [freshDirInode]), if_neg (by simp [hfind]), hblocks]
  rw [if_neg (by simp [freshDirInode, MAX_DIRECT_BLOCKS])]
  refine ⟨(allocate_block fs).1, rfl, rfl, by simp [freshDirInode, BLOCK_SIZE], ?_, ?_, ?_, ?_⟩
  · show (freshDirInode.direct_blocks.set freshDirInode.num_direct
      (allocate_block fs).1).take 1 = _
    rw [show freshDirInode.direct_blocks = List.replicate MAX_DIRECT_BLOCKS 0 from rfl]
    rw [show freshDirInode.num_direct = 0 from rfl]
    rw [replicate_set_zero _ (by norm_num [MAX_DIRECT_BLOCKS])]
    rfl
  · simpa [save_directory_entries, write_inode_dbm, write_block_dbm]
      using allocate_block_bit_self fs
  · show (write_inode _ _ _).disk[(allocate_block fs).1]? = _
    rw [write_inode_disk, save_directory_entries,
      write_block_get_self _ _ _ (by
        rw [allocate_block_len fs hlen]; exact allocate_block_lt fs)]
    have hname : nm.take (MAX_FILENAME - 1) = nm := List.take_of_length_le hnmlen
    rw [replicate_set_zero _ (by norm_num [DIR_ENTRIES_PER_BLOCK_eq])]
    simp [entryOf, hname, DIR_ENTRIES_PER_BLOCK_eq]
  · simp [save_directory_entries, write_inode, write_block, allocate_block_len fs hlen]

/-- Folding `add_entry_step` over a list of further entries. -/
theorem addMany_inv (dn : ℕ) (ps : List (Name × ℤ)) :
    ∀ (done : List (Name × ℤ)) (fs : FS) (dir : Inode),
      AddManyInv done fs dir →
      1 ≤ done.length →
      done.length + ps.length ≤ DIR_ENTRIES_PER_BLOCK →
      (∀ p ∈ ps, p.1.length ≤ MAX_FILENAME - 1) →
      (∀ p ∈ done ++ ps, p.2 ≠ -1) →
      (done ++ ps).Pairwise (fun p q => p.1 ≠ q.1) →
      AddManyInv (done ++ ps) (addMany fs dir dn ps).1 (addMany fs dir dn ps).2 := by
  induction ps with
  | nil =>
    intro done fs dir hinv _ _ _ _ _
    simpa [addMany] using hinv
  | cons p rest ih =>
    rcases p with ⟨nm, c⟩
    intro done fs dir hinv h1 hcap hplen hlive hpair
    have hnm : ∀ q ∈ done, q.1 ≠ nm := by
      intro q hq
      have := (List.pairwise_append.mp hpair).2.2 q hq (nm, c) (by simp)
      exact this
    have hstep := add_entry_step fs dir dn done nm c hinv h1
      (by simp only [List.length_cons] at hcap; omega)
      hnm (hplen (nm, c) (by simp)) (fun q hq => hlive q (List.mem_append_left _ hq))
    rw [addMany]
    rw [hstep.1]
    have happ : done ++ (nm, c) :: rest = (done ++ [(nm, c)]) ++ rest := by simp
    rw [happ]
    apply ih (done ++ [(nm, c)]) _ _ hstep.2
    · simp
    · simp only [List.length_append, List.length_singleton, List.length_cons,
        List.length_nil] at hcap ⊢
      omega
    · intro q hq; exact hplen q (by simp [hq])
    · intro q hq
      exact hlive q (by rw [happ]; exact hq)
    · rw [← happ]; exact hpair

/-- Adding to a directory whose only block is full allocates a second
direct block. -/
theorem add_entry_new_block (fs : FS) (dir : Inode) (dn : ℕ)
    (done : List (Name × ℤ)) (nm : Name) (c : ℤ)
    (hinv : AddManyInv done fs dir)
    (hfull : done.length = DIR_ENTRIES_PER_BLOCK)
    (hnm : ∀ p ∈ done, p.1 ≠ nm)
    (hlive : ∀ p ∈ done, p.2 ≠ -1) :
    (add_entry_to_dir fs dir dn nm c).status = 0 ∧
    (add_entry_to_dir fs dir dn nm c).dir.num_direct = 2 := by
  obtain ⟨b, ht, hnd, hsz, htake, hbit, hget, hlen⟩ := hinv
  have hfind := find_entry_inv_none done fs dir ⟨b, ht, hnd, hsz, htake, hbit, hget, hlen⟩ nm hnm
  have hload : load_directory_entries fs b =
      some (done.map entryOf ++
        List.replicate (DIR_ENTRIES_PER_BLOCK - done.length) freeDirEntry) := by
    rw [load_directory_entries, hget]
  have hliveE : ∀ e ∈ done.map entryOf ++
      List.replicate (DIR_ENTRIES_PER_BLOCK - done.length) freeDirEntry,
      e.inode_num ≠ -1 := by
    intro e he
    rcases List.mem_append.mp he with h | h
    · obtain ⟨p, hp, rfl⟩ := List.mem_map.mp h
      simpa [entryOf] using hlive p hp
    · exact absurd h (by simp [hfull])
  have hblocks : add_entry_blocks fs nm c (dir.direct_blocks.take dir.num_direct)
      = none := by
    rw [htake]
    simp [add_entry_blocks, hload, freeSlotIdx_none _ hliveE]
  rw [add_entry_to_dir, if_neg (by simp [ht]), if_neg (by simp [hfind]), hblocks]
  rw [if_neg (by rw [hnd]; norm_num [MAX_DIRECT_BLOCKS])]
  exact ⟨rfl, by simp [hnd]⟩

/-- Splitting an `addMany` run. -/
theorem addMany_append (fs : FS) (dir : Inode) (dn : ℕ)
    (l1 l2 : List (Name × ℤ)) :
    addMany fs dir dn (l1 ++ l2) =
      addMany (addMany fs dir dn l1).1 (addMany fs dir dn l1).2 dn l2 := by
  induction l1 generalizing fs dir with
  | nil => simp [addMany]
  | cons p t ih =>
    rcases p with ⟨nm, c⟩
    rw [List.cons_append, addMany, addMany, ih]

/-- Claim C3, amended.  A directory data block holds
`⌊4096 / sizeof(dir_entry_t)⌋ = 15` entries, and — starting from a fresh
directory, with all previous entries live — it is the 16th distinct entry
whose addition first triggers allocation of a further direct block: after
15 additions the directory still has one direct block, and the 16th
addition makes it two. -/
theorem dir_block_capacity_sixteenth_entry (fs0 : FS) (dn : ℕ)
    (ps : List (Name × ℤ))
    (hlen16 : ps.length = 16)
    (hdist : ps.Pairwise (fun p q => p.1 ≠ q.1))
    (hshort : ∀ p ∈ ps, p.1.length ≤ MAX_FILENAME - 1)
    (hlive : ∀ p ∈ ps, p.2 ≠ -1)
    (hfs : fs0.disk.length = fs0.dbm.length) :
    DIR_ENTRIES_PER_BLOCK = BLOCK_SIZE / SIZEOF_DIR_ENTRY ∧
    DIR_ENTRIES_PER_BLOCK = 15 ∧
    (addMany fs0 freshDirInode dn (ps.take 15)).2.num_direct = 1 ∧
    (addMany fs0 freshDirInode dn ps).2.num_direct = 2 := by
  rcases ps with _ | ⟨p1, rest⟩
  · simp at hlen16
  · rcases p1 with ⟨nm1, c1⟩
    have hrest : rest.length = 15 := by simpa using hlen16
    -- the run over the first 15 entries
    have hbase := add_entry_first fs0 dn nm1 c1 (hshort (nm1, c1) (by simp)) hfs
    set r1 := add_entry_to_dir fs0 freshDirInode dn nm1 c1 with hr1
    have htake15 : (((nm1, c1) :: rest).take 15) = (nm1, c1) :: rest.take 14 := by
      simp
    have hmain := addMany_inv dn (rest.take 14) [(nm1, c1)] r1.fs r1.dir hbase
      (by simp)
      (by simp [DIR_ENTRIES_PER_BLOCK_eq]; omega)
      (by intro q hq; exact hshort q (by simp [List.mem_of_mem_take hq]))
      (by
        intro q hq
        apply hlive
        rcases List.mem_append.mp hq with h | h
        · simp at h; simp [h]
        · simp [List.mem_of_mem_take h])
      (by
        have : ([(nm1, c1)] ++ rest.take 14 : List (Name × ℤ)).Sublist ((nm1, c1) :: rest) := by
          simp only [List.singleton_append]
          exact List.cons_sublist_cons.mpr (List.take_sublist 14 rest)
        exact hdist.sublist this)
    obtain ⟨b, ht, hnd, hsz, htake, hbit, hget, hlen⟩ := hmain
    have h15 : (addMany fs0 freshDirInode dn (((nm1, c1) :: rest).take 15)).2.num_direct
        = 1 := by
      rw [htake15, addMany, ← hr1]
      exact hnd
    refine ⟨rfl, DIR_ENTRIES_PER_BLOCK_eq, h15, ?_⟩
    -- the 16th entry
    obtain ⟨p16, hdrop⟩ : ∃ p, rest.drop 14 = [p] := by
      have h1 : (rest.drop 14).length = 1 := by simp [hrest]
      rcases hd : rest.drop 14 with _ | ⟨x, t⟩
      · rw [hd] at h1; simp at h1
      · rw [hd] at h1
        simp at h1
        exact ⟨x, by simp [h1]⟩
    have hrest2 : rest = rest.take 14 ++ [p16] := by
      rw [← hdrop]; exact (List.take_append_drop 14 rest).symm
    have hpc := List.pairwise_cons.mp hdist
    have hnm16 : ∀ p ∈ ([(nm1, c1)] ++ rest.take 14 : List (Name × ℤ)),
        p.1 ≠ p16.1 := by
      intro p hp
      rcases List.mem_append.mp hp with h | h
      · have hp1 : p = (nm1, c1) := by simpa using h
        subst hp1
        exact hpc.1 p16 (by rw [hrest2]; simp)
      · have hpw := hpc.2
        rw [hrest2] at hpw
        exact (List.pairwise_append.mp hpw).2.2 p h p16 (by simp)
    have hfull : ([(nm1, c1)] ++ rest.take 14 : List (Name × ℤ)).length
        = DIR_ENTRIES_PER_BLOCK := by
      simp [DIR_ENTRIES_PER_BLOCK_eq]
      omega
    have hlive16 : ∀ p ∈ ([(nm1, c1)] ++ rest.take 14 : List (Name × ℤ)), p.2 ≠ -1 := by
      intro q hq
      apply hlive
      rcases List.mem_append.mp hq with h | h
      · have : q = (nm1, c1) := by simpa using h
        simp [this]
      · simp [List.mem_of_mem_take h]
    have h16 := add_entry_new_block
      (addMany r1.fs r1.dir dn (rest.take 14)).1
      (addMany r1.fs r1.dir dn (rest.take 14)).2 dn
      ([(nm1, c1)] ++ rest.take 14) p16.1 p16.2
      ⟨b, ht, hnd, hsz, htake, hbit, hget, hlen⟩ hfull hnm16 hlive16
    have hrun : addMany fs0 freshDirInode dn ((nm1, c1) :: rest)
        = addMany (addMany r1.fs r1.dir dn (rest.take 14)).1
            (addMany r1.fs r1.dir dn (rest.take 14)).2 dn [p16] := by
      rw [addMany, ← hr1]
      conv_lhs => rw [hrest2]
      rw [addMany_append]
    rw [hrun]
    rcases p16 with ⟨nm16, c16⟩
    rw [addMany, addMany]
    exact h16.2

/-- 16 distinct live entries. -/
def c3pairs : List (Name × ℤ) :=
  [(['a'], 1), (['b'], 2), (['c'], 3), (['d'], 4), (['e'], 5), (['f'], 6),
   (['g'], 7), (['h'], 8), (['i'], 9), (['j'], 10), (['k'], 11), (['l'], 12),
   (['m'], 13), (['n'], 14), (['o'], 15), (['p'], 16)]

/-- Claim C3, counterexample to the claim as stated: with
`sizeof(dir_entry_t) = 260` a directory block holds 15 entries, so in this
concrete run the three-blocks-shy-of-256th — namely the 16th — distinct
entry already triggers allocation of a new direct block (`num_direct` goes
from 1 to 2); the 256th is therefore not the first add that triggers one. -/
theorem dir_block_sixteenth_triggers_concrete :
    (addMany freshFS freshDirInode 1 (c3pairs.take 15)).2.num_direct = 1 ∧
    (addMany freshFS freshDirInode 1 c3pairs).2.num_direct = 2 := by
  decide

/-- Witness for `dir_block_capacity_sixteenth_entry` at the concrete entry
list `c3pairs`. -/
theorem dir_block_capacity_sixteenth_entry_witness :
    DIR_ENTRIES_PER_BLOCK = BLOCK_SIZE / SIZEOF_DIR_ENTRY ∧
    DIR_ENTRIES_PER_BLOCK = 15 ∧
    (addMany freshFS freshDirInode 1 (c3pairs.take 15)).2.num_direct = 1 ∧
    (addMany freshFS freshDirInode 1 c3pairs).2.num_direct = 2 :=
  dir_block_capacity_sixteenth_entry freshFS 1 c3pairs (by decide) (by decide)
    (by decide) (by decide) (by decide)

/-! ## Claim C7: remove-side reclamation for a file -/

theorem readPtrs_congr_disk {fs1 fs2 : FS} (h : fs1.disk = fs2.disk) (id : ℕ) :
    readPtrs fs1 id = readPtrs fs2 id := by
  rw [readPtrs, readPtrs, h]

/-- The set of data-segment bits the file branch of
`exfs2_remove_recursive` clears: the live direct blocks, and — when an
indirect block is present — the leading non-zero entries of the indirect
block followed by the indirect block itself. -/
def fileFreedBlocks (fs : FS) (ino : Inode) : List ℕ :=
  ino.direct_blocks.take ino.num_direct ++
    (if ino.indirect_block = -1 then []
     else (readPtrs fs ino.indirect_block.toNat).takeWhile (· ≠ 0) ++
       [ino.indirect_block.toNat])

/-- Claim C7.  Removing a file clears the data bitmap bit of every live
direct block, of every leading non-zero single-indirect entry and of the
single-indirect block itself (when present), clears the file's inode bitmap
bit, and touches nothing else: all other data and inode bits, all block
contents, and all inode records are unchanged. -/
theorem remove_file_reclaims (fuel : ℕ) (fs : FS) (n : ℕ) (ino : Inode)
    (hread : read_inode fs n = some ino) (htype : ino.type = 1) :
    (∀ b ∈ fileFreedBlocks fs ino,
        (exfs2_remove_recursive (fuel + 1) fs n).dbm.getD b false = false) ∧
    (∀ b, b ∉ fileFreedBlocks fs ino →
        (exfs2_remove_recursive (fuel + 1) fs n).dbm.getD b false = fs.dbm.getD b false) ∧
    (exfs2_remove_recursive (fuel + 1) fs n).ibm.getD n false = false ∧
    (∀ m, m ≠ n →
        (exfs2_remove_recursive (fuel + 1) fs n).ibm.getD m false = fs.ibm.getD m false) ∧
    (exfs2_remove_recursive (fuel + 1) fs n).disk = fs.disk ∧
    (exfs2_remove_recursive (fuel + 1) fs n).inodes = fs.inodes := by
  have hrun : exfs2_remove_recursive (fuel + 1) fs n =
      free_inode
        (if ino.indirect_block = -1 then
          (ino.direct_blocks.take ino.num_direct).foldl free_block fs
         else
          free_block
            (((readPtrs ((ino.direct_blocks.take ino.num_direct).foldl free_block fs)
                ino.indirect_block.toNat).takeWhile (· ≠ 0)).foldl free_block
              ((ino.direct_blocks.take ino.num_direct).foldl free_block fs))
            ino.indirect_block.toNat) n := by
    rw [exfs2_remove_recursive, hread]
    simp only [htype, if_true]
  have hdiskD : ((ino.direct_blocks.take ino.num_direct).foldl free_block fs).disk
      = fs.disk := foldl_free_block_disk _ _
  have hptrs : readPtrs ((ino.direct_blocks.take ino.num_direct).foldl free_block fs)
      ino.indirect_block.toNat = readPtrs fs ino.indirect_block.toNat :=
    readPtrs_congr_disk hdiskD _
  have hdbm : ∀ x : ℕ,
      (exfs2_remove_recursive (fuel + 1) fs n).dbm.getD x false =
        if x ∈ fileFreedBlocks fs ino then false else fs.dbm.getD x false := by
    intro x
    rw [hrun]
    show (if ino.indirect_block = -1 then _ else _ : FS).dbm.getD x false = _
    by_cases hi : ino.indirect_block = -1
    · rw [if_pos hi]
      rw [foldl_free_block_getD]
      rw [fileFreedBlocks, if_pos hi]
      simp
    · rw [if_neg hi, fileFreedBlocks, if_neg hi, hptrs]
      by_cases hx : x = ino.indirect_block.toNat
      · subst hx
        rw [show (free_block _ _).dbm.getD _ false = false from getD_set_false _ _]
        rw [if_pos (List.mem_append_right _ (List.mem_append_right _ (by simp)))]
      · rw [show (free_block _ _).dbm.getD x false = _ from getD_set_ne _ false hx]
        rw [foldl_free_block_getD, foldl_free_block_getD]
        by_cases hx2 : x ∈ (readPtrs fs ino.indirect_block.toNat).takeWhile (· ≠ 0)
        · rw [if_pos hx2, if_pos (List.mem_append_right _ (List.mem_append_left _ hx2))]
        · rw [if_neg hx2]
          by_cases hx3 : x ∈ ino.direct_blocks.take ino.num_direct
          · rw [if_pos hx3, if_pos (List.mem_append_left _ hx3)]
          · rw [if_neg hx3, if_neg (by
              simp only [List.mem_append, List.mem_singleton]
              tauto)]
  have hibm : (exfs2_remove_recursive (fuel + 1) fs n).ibm = fs.ibm.set n false := by
    rw [hrun]
    show (free_inode _ _).ibm = _
    rw [free_inode]
    by_cases hi : ino.indirect_block = -1
    · rw [if_pos hi, foldl_free_block_ibm]
    · rw [if_neg hi, free_block_ibm, foldl_free_block_ibm, foldl_free_block_ibm]
  refine ⟨?_, ?_, ?_, ?_, ?_, ?_⟩
  · intro b hb; rw [hdbm b, if_pos hb]
  · intro b hb; rw [hdbm b, if_neg hb]
  · rw [hibm]; exact getD_set_false _ _
  · intro m hm; rw [hibm]; exact getD_set_ne _ false hm
  · rw [hrun, free_inode_disk]
    by_cases hi : ino.indirect_block = -1
    · rw [if_pos hi, foldl_free_block_disk]
    · rw [if_neg hi, free_block_disk, foldl_free_block_disk, foldl_free_block_disk]
  · rw [hrun, free_inode_inodes]
    by_cases hi : ino.indirect_block = -1
    · rw [if_pos hi, foldl_free_block_inodes]
    · rw [if_neg hi, free_block_inodes, foldl_free_block_inodes, foldl_free_block_inodes]

/-- A small filesystem with a file at inode 1: one direct block (id 1), a
single-indirect block (id 2) holding data block 3, and live bits for blocks
0..3. -/
def fsC7 : FS :=
  { ibm := [true, true]
    inodes := [freshDirInode,
      { type := 1, size := 2 * BLOCK_SIZE + 1, num_direct := 1
        direct_blocks := [1]
        indirect_block := 2, double_indirect_block := -1, triple_indirect_block := -1 }]
    dbm := [true, true, true, true]
    disk := [.entries [], .bytes [], .ptrs [3, 0, 0], .bytes []] }

/-- Witness for `remove_file_reclaims` on `fsC7`: blocks 1 (direct),
3 (indirect entry) and 2 (the indirect block) are freed, block 0 and inode 0
are untouched, and inode 1's bit is cleared. -/
theorem remove_file_reclaims_witness :
    (exfs2_remove_recursive 1 fsC7 1).dbm.getD 1 false = false ∧
    (exfs2_remove_recursive 1 fsC7 1).dbm.getD 3 false = false ∧
    (exfs2_remove_recursive 1 fsC7 1).dbm.getD 2 false = false ∧
    (exfs2_remove_recursive 1 fsC7 1).dbm.getD 0 false = fsC7.dbm.getD 0 false ∧
    (exfs2_remove_recursive 1 fsC7 1).ibm.getD 1 false = false ∧
    (exfs2_remove_recursive 1 fsC7 1).ibm.getD 0 false = fsC7.ibm.getD 0 false := by
  have h := remove_file_reclaims 0 fsC7 1
    { type := 1, size := 2 * BLOCK_SIZE + 1, num_direct := 1
      direct_blocks := [1]
      indirect_block := 2, double_indirect_block := -1, triple_indirect_block := -1 }
    (by decide) (by decide)
  exact ⟨h.1 1 (by decide), h.1 3 (by decide), h.1 2 (by decide),
    h.2.1 0 (by decide), h.2.2.1, h.2.2.2.1 0 (by decide)⟩

/-! ## Claim C8: add is rejected without effect when the target exists -/

/-- Pure-read resolution of a component list from a starting directory,
following exactly the checks the walk in `exfs2_add` performs: each
component must resolve, its inode must be readable and be a directory. -/
def resolve_dirs (fs : FS) : ℕ → Inode → List Name → Option (ℕ × Inode)
  | num, ino, [] => some (num, ino)
  | _, ino, p :: rest =>
      let nxt := find_entry_in_dir fs ino p
      if nxt = -1 then none
      else
        match read_inode fs nxt.toNat with
        | none => none
        | some nx => if nx.type = 2 then resolve_dirs fs nxt.toNat nx rest else none

/-- When every component resolves to an existing directory, the walk of
`exfs2_add` performs pure reads: it creates nothing and returns the
filesystem unchanged. -/
theorem addWalk_of_resolve (fs : FS) :
    ∀ (parts : List Name) (curNum : ℕ) (cur : Inode) (pn : ℕ) (pino : Inode),
      resolve_dirs fs curNum cur parts = some (pn, pino) →
      addWalk fs curNum cur parts = (fs, .ok (pn, pino)) := by
  intro parts
  induction parts with
  | nil =>
    intro curNum cur pn pino h
    simp only [resolve_dirs, Option.some.injEq, Prod.mk.injEq] at h
    rw [addWalk, h.1, h.2]
  | cons p rest ih =>
    intro curNum cur pn pino h
    rw [resolve_dirs] at h
    rw [addWalk]
    by_cases h1 : find_entry_in_dir fs cur p = -1
    · rw [if_pos h1] at h
      simp at h
    · rw [if_neg h1] at h
      rw [if_neg h1]
      rcases h2 : read_inode fs (find_entry_in_dir fs cur p).toNat with _ | nx
      · simp only [h2] at h
        simp at h
      · simp only [h2] at h ⊢
        by_cases h3 : nx.type = 2
        · rw [if_pos h3] at h
          rw [if_pos h3]
          exact ih _ _ _ _ h
        · rw [if_neg h3] at h; simp at h

/-- Claim C8.  If every intermediate directory of the path exists and the
final component already resolves in the parent directory, `exfs2_add`
prints the "file already exists" diagnostic and returns the filesystem
completely unchanged (same bitmaps, inodes, data blocks and directory
entries). -/
theorem add_rejected_when_target_exists (fs : FS) (path : List Char)
    (local_file : Option (List ℕ)) (root : Inode) (pn : ℕ) (pino : Inode)
    (hne : split_path path ≠ [])
    (hroot : read_inode fs 0 = some root)
    (hwalk : resolve_dirs fs 0 root (split_path path).dropLast = some (pn, pino))
    (hexists : find_entry_in_dir fs pino ((split_path path).getLast hne) ≠ -1) :
    exfs2_add fs path local_file = (fs, .fileExists) := by
  rw [exfs2_add, dif_neg hne]
  simp only [hroot]
  rw [addWalk_of_resolve fs ((split_path path).dropLast) 0 root pn pino hwalk]
  simp [hexists]

/-- A root directory whose single entry block holds the name `a` at
inode 1. -/
def rootC8 : Inode :=
  { type := 2, size := BLOCK_SIZE, num_direct := 1
    direct_blocks := [0]
    indirect_block := -1, double_indirect_block := -1, triple_indirect_block := -1 }

def fsC8 : FS :=
  { ibm := [true, true]
    inodes := [rootC8, freshFileInode]
    dbm := [true]
    disk := [.entries ({ name := ['a'], inode_num := 1 } ::
      List.replicate 14 freeDirEntry)] }

/-- Witness for `add_rejected_when_target_exists`: adding `/a` over the
existing `a` leaves `fsC8` unchanged and reports "file already exists". -/
theorem add_rejected_when_target_exists_witness :
    exfs2_add fsC8 ['/', 'a'] none = (fsC8, .fileExists) :=
  add_rejected_when_target_exists fsC8 ['/', 'a'] none rootC8 0 rootC8
    (by decide) (by decide) (by decide) (by decide)


/-! ## The write-side growth invariant (claims C1, C2, C4, C9) -/

/-- Data-segment bit `b` is set. -/
def bitT (fs : FS) (b : ℕ) : Prop := fs.dbm.getD b false = true

theorem bitT_lt_disk {fs : FS} {x : ℕ} (hlen : fs.disk.length = fs.dbm.length)
    (h : bitT fs x) : x < fs.disk.length := by
  rw [hlen]; exact getD_true_lt h

theorem bitT_alloc {fs : FS} {x : ℕ} (h : bitT fs x) :
    bitT (allocate_block fs).2 x := allocate_block_bit_mono fs h

theorem readPtrs_write_self (fs : FS) (id : ℕ) (l : List ℕ)
    (h : id < fs.disk.length) :
    readPtrs (write_block fs id (.ptrs l)) id = l := by
  rw [readPtrs, write_block_get_self _ _ _ h]

theorem readPtrs_write_ne (fs : FS) (id x : ℕ) (b : BlockData) (h : x ≠ id) :
    readPtrs (write_block fs id b) x = readPtrs fs x := by
  rw [readPtrs, write_block_get_ne _ _ _ _ h, readPtrs]

theorem readPtrs_alloc {fs : FS} {x : ℕ} (hlen : fs.disk.length = fs.dbm.length)
    (hx : bitT fs x) :
    readPtrs (allocate_block fs).2 x = readPtrs fs x := by
  rw [readPtrs, allocate_block_get fs hlen hx, readPtrs]

theorem replicate_getD_zero (n i : ℕ) : (List.replicate n (0 : ℕ)).getD i 0 = 0 := by
  rw [List.getD_eq_getElem?_getD]
  by_cases h : i < n
  · rw [List.getElem?_replicate, if_pos h]
    rfl
  · rw [List.getElem?_eq_none (by simpa using h)]
    rfl

/-- The state of the single-indirect structure after `total_blocks` chunks:
the indirect block `ib` exists, its bit is set, and its content is the list
of data-block ids written so far in the single range (all non-zero),
followed by zeros. -/
def SingleInv (st : AddLoopState) (ib : ℕ) : Prop :=
  st.file.indirect_block = (ib : ℤ) ∧ ib ≠ 0 ∧ bitT st.fs ib ∧
  ∃ ids : List ℕ,
    ids.length = min (st.total_blocks - MAX_DIRECT_BLOCKS) PTRS_PER_BLOCK ∧
    readPtrs st.fs ib = ids ++ List.replicate (PTRS_PER_BLOCK - ids.length) 0 ∧
    ∀ x ∈ ids, x ≠ 0

/-- The state of the double-indirect structure: the double-indirect block
`d` holds one level-1 block per chunk of the double range (the reference's
growth bug), and each level-1 block holds exactly one data-block id, at its
slot 0. -/
def DoubleInv (st : AddLoopState) (ib d : ℕ) : Prop :=
  st.file.double_indirect_block = (d : ℤ) ∧ d ≠ 0 ∧ bitT st.fs d ∧ d ≠ ib ∧
  ∃ l1s : List ℕ,
    l1s.length = min (st.total_blocks - (MAX_DIRECT_BLOCKS + PTRS_PER_BLOCK)) PTRS_PER_BLOCK ∧
    readPtrs st.fs d = l1s ++ List.replicate (PTRS_PER_BLOCK - l1s.length) 0 ∧
    l1s.Nodup ∧ ib ∉ l1s ∧ d ∉ l1s ∧
    ∀ l ∈ l1s, l ≠ 0 ∧ bitT st.fs l ∧
      ∃ b, readPtrs st.fs l = b :: List.replicate (PTRS_PER_BLOCK - 1) 0 ∧ b ≠ 0

/-- The full loop invariant of the copy loop of `exfs2_add`. -/
def LoopInv (st : AddLoopState) : Prop :=
  st.fs.disk.length = st.fs.dbm.length ∧
  (1 ≤ st.total_blocks → bitT st.fs 0) ∧
  st.file.num_direct = min st.total_blocks MAX_DIRECT_BLOCKS ∧
  st.indirect_count = min (st.total_blocks - MAX_DIRECT_BLOCKS) PTRS_PER_BLOCK ∧
  ((st.total_blocks ≤ MAX_DIRECT_BLOCKS ∧ st.file.indirect_block = -1 ∧
      st.file.double_indirect_block = -1 ∧ st.level1 = 0 ∧ st.level2 = 0)
   ∨ (MAX_DIRECT_BLOCKS < st.total_blocks ∧
      ∃ ib : ℕ, SingleInv st ib ∧
        ((st.total_blocks ≤ MAX_DIRECT_BLOCKS + PTRS_PER_BLOCK ∧
            st.file.double_indirect_block = -1 ∧ st.level1 = 0 ∧ st.level2 = 0)
         ∨ (MAX_DIRECT_BLOCKS + PTRS_PER_BLOCK < st.total_blocks ∧
            st.level1 = st.total_blocks - (MAX_DIRECT_BLOCKS + PTRS_PER_BLOCK) ∧
            st.level2 = 1 ∧
            ∃ d : ℕ, DoubleInv st ib d))))

/-- The filesystem after writing the chunk's data block. -/
def afterData (st : AddLoopState) (chunk : List ℕ) : FS :=
  write_block (allocate_block st.fs).2 (allocate_block st.fs).1 (padBlock chunk)

/-- The id of the chunk's data block. -/
def dataId (st : AddLoopState) : ℕ := (allocate_block st.fs).1

theorem addLoopStep_direct (st : AddLoopState) (chunk : List ℕ)
    (h : st.total_blocks < MAX_DIRECT_BLOCKS) :
    addLoopStep st chunk =
      { st with
          fs := afterData st chunk
          file := { st.file with
              direct_blocks := st.file.direct_blocks.set st.file.num_direct (dataId st)
              num_direct := st.file.num_direct + 1
              size := st.file.size + chunk.length }
          total_blocks := st.total_blocks + 1 } := by
  simp only [addLoopStep, afterData, dataId, if_pos h]

theorem addLoopStep_single_first (st : AddLoopState) (chunk : List ℕ)
    (hd : ¬ st.total_blocks < MAX_DIRECT_BLOCKS)
    (hs : st.total_blocks < MAX_DIRECT_BLOCKS + PTRS_PER_BLOCK)
    (hi : st.file.indirect_block = -1) :
    addLoopStep st chunk =
      { st with
          fs := write_block (allocate_block (afterData st chunk)).2
            (allocate_block (afterData st chunk)).1
            (.ptrs ((List.replicate PTRS_PER_BLOCK 0).set st.indirect_count (dataId st)))
          file := { st.file with
              indirect_block := ((allocate_block (afterData st chunk)).1 : ℤ)
              size := st.file.size + chunk.length }
          total_blocks := st.total_blocks + 1
          indirect_count := st.indirect_count + 1 } := by
  simp only [addLoopStep, afterData, dataId, if_neg hd, if_pos hs, if_pos hi]

theorem addLoopStep_single_later (st : AddLoopState) (chunk : List ℕ)
    (hd : ¬ st.total_blocks < MAX_DIRECT_BLOCKS)
    (hs : st.total_blocks < MAX_DIRECT_BLOCKS + PTRS_PER_BLOCK)
    (hi : ¬ st.file.indirect_block = -1) :
    addLoopStep st chunk =
      { st with
          fs := write_block (afterData st chunk) st.file.indirect_block.toNat
            (.ptrs ((readPtrs (afterData st chunk) st.file.indirect_block.toNat).set
              st.indirect_count (dataId st)))
          file := { st.file with
              indirect_block := (st.file.indirect_block.toNat : ℤ)
              size := st.file.size + chunk.length }
          total_blocks := st.total_blocks + 1
          indirect_count := st.indirect_count + 1 } := by
  simp only [addLoopStep, afterData, dataId, if_neg hd, if_pos hs, if_neg hi]

/-- The double-indirect block id consulted in the later double iterations. -/
def dibN (st : AddLoopState) : ℕ := st.file.double_indirect_block.toNat

/-- First double iteration: state after allocating and zeroing the
double-indirect block. -/
def afterDib (st : AddLoopState) (chunk : List ℕ) : FS :=
  write_block (allocate_block (afterData st chunk)).2
    (allocate_block (afterData st chunk)).1 (.ptrs (List.replicate PTRS_PER_BLOCK 0))

/-- First double iteration: the id of the double-indirect block. -/
def dibIdF (st : AddLoopState) (chunk : List ℕ) : ℕ :=
  (allocate_block (afterData st chunk)).1

/-- First double iteration: the id of the freshly opened level-1 block. -/
def l1IdF (st : AddLoopState) (chunk : List ℕ) : ℕ :=
  (allocate_block (afterDib st chunk)).1

/-- First double iteration: state after allocating and zeroing the level-1
block. -/
def afterL1F (st : AddLoopState) (chunk : List ℕ) : FS :=
  write_block (allocate_block (afterDib st chunk)).2 (l1IdF st chunk)
    (.ptrs (List.replicate PTRS_PER_BLOCK 0))

theorem addLoopStep_double_first (st : AddLoopState) (chunk : List ℕ)
    (hd : ¬ st.total_blocks < MAX_DIRECT_BLOCKS)
    (hs : ¬ st.total_blocks < MAX_DIRECT_BLOCKS + PTRS_PER_BLOCK)
    (hdd : st.file.double_indirect_block = -1) :
    addLoopStep st chunk =
      { st with
          fs := write_block
            (write_block (afterL1F st chunk)
              (((List.replicate PTRS_PER_BLOCK 0).set st.level1 (l1IdF st chunk)).getD
                st.level1 0)
              (.ptrs ((readPtrs (afterL1F st chunk)
                (((List.replicate PTRS_PER_BLOCK 0).set st.level1 (l1IdF st chunk)).getD
                  st.level1 0)).set 0 (dataId st))))
            (dibIdF st chunk)
            (.ptrs ((List.replicate PTRS_PER_BLOCK 0).set st.level1 (l1IdF st chunk)))
          file := { st.file with
              double_indirect_block := (dibIdF st chunk : ℤ)
              size := st.file.size + chunk.length }
          total_blocks := st.total_blocks + 1
          level1 := st.level1 + 1
          level2 := 1 } := by
  simp only [addLoopStep, afterData, dataId, afterDib, dibIdF, l1IdF, afterL1F,
    if_neg hd, if_neg hs, if_pos hdd,
    replicate_getD_zero, eq_self_iff_true, or_true, if_true, Nat.add_sub_cancel]

/-- Later double iterations: the id of the freshly opened level-1 block. -/
def l1IdL (st : AddLoopState) (chunk : List ℕ) : ℕ :=
  (allocate_block (afterData st chunk)).1

/-- Later double iterations: state after allocating and zeroing the level-1
block. -/
def afterL1L (st : AddLoopState) (chunk : List ℕ) : FS :=
  write_block (allocate_block (afterData st chunk)).2 (l1IdL st chunk)
    (.ptrs (List.replicate PTRS_PER_BLOCK 0))

theorem addLoopStep_double_later (st : AddLoopState) (chunk : List ℕ)
    (hd : ¬ st.total_blocks < MAX_DIRECT_BLOCKS)
    (hs : ¬ st.total_blocks < MAX_DIRECT_BLOCKS + PTRS_PER_BLOCK)
    (hdd : ¬ st.file.double_indirect_block = -1)
    (hc : (readPtrs (afterData st chunk) (dibN st)).getD st.level1 0 = 0) :
    addLoopStep st chunk =
      { st with
          fs := write_block
            (write_block (afterL1L st chunk)
              (((readPtrs (afterData st chunk) (dibN st)).set st.level1
                (l1IdL st chunk)).getD st.level1 0)
              (.ptrs ((readPtrs (afterL1L st chunk)
                (((readPtrs (afterData st chunk) (dibN st)).set st.level1
                  (l1IdL st chunk)).getD st.level1 0)).set 0 (dataId st))))
            (dibN st)
            (.ptrs ((readPtrs (afterData st chunk) (dibN st)).set st.level1
              (l1IdL st chunk)))
          file := { st.file with
              double_indirect_block := (dibN st : ℤ)
              size := st.file.size + chunk.length }
          total_blocks := st.total_blocks + 1
          level1 := st.level1 + 1
          level2 := 1 } := by
  have hc' : (readPtrs (write_block (allocate_block st.fs).2 (allocate_block st.fs).1
      (padBlock chunk)) st.file.double_indirect_block.toNat).getD st.level1 0 = 0 := by
    simpa only [afterData, dibN] using hc
  simp only [addLoopStep, afterData, dataId, dibN, l1IdL, afterL1L,
    if_neg hd, if_neg hs, if_neg hdd,
    hc', eq_self_iff_true, or_true, if_true, Nat.add_sub_cancel]

theorem MAX_DIRECT_BLOCKS_eq : MAX_DIRECT_BLOCKS = 1017 := rfl

theorem afterData_len (st : AddLoopState) (chunk : List ℕ)
    (hlen : st.fs.disk.length = st.fs.dbm.length) :
    (afterData st chunk).disk.length = (afterData st chunk).dbm.length := by
  rw [afterData, write_block_dbm, write_block_disk_length]
  exact allocate_block_len st.fs hlen

theorem afterData_bit0 (st : AddLoopState) (chunk : List ℕ) :
    bitT (afterData st chunk) 0 := allocate_block_bit0 st.fs

theorem afterData_bit_mono (st : AddLoopState) (chunk : List ℕ) {x : ℕ}
    (h : bitT st.fs x) : bitT (afterData st chunk) x :=
  allocate_block_bit_mono st.fs h

theorem afterData_readPtrs (st : AddLoopState) (chunk : List ℕ) {x : ℕ}
    (hlen : st.fs.disk.length = st.fs.dbm.length) (h : bitT st.fs x) :
    readPtrs (afterData st chunk) x = readPtrs st.fs x := by
  rw [afterData, readPtrs_write_ne _ _ _ _ (Ne.symm (allocate_block_ne st.fs h)),
    readPtrs_alloc hlen h]

theorem dataId_ne (st : AddLoopState) {x : ℕ} (h : bitT st.fs x) : dataId st ≠ x :=
  allocate_block_ne st.fs h

/-- Invariant preservation, direct range. -/
theorem stepInv_direct (st : AddLoopState) (chunk : List ℕ)
    (hinv : LoopInv st) (h : st.total_blocks < MAX_DIRECT_BLOCKS) :
    LoopInv (addLoopStep st chunk) := by
  obtain ⟨hlen, hbit0, hnd, hic, hphase⟩ := hinv
  rw [addLoopStep_direct st chunk h]
  rcases hphase with ⟨h1, h2, h3, h4, h5⟩ | ⟨hgt, _⟩
  · refine ⟨afterData_len st chunk hlen, fun _ => afterData_bit0 st chunk, ?_, ?_, ?_⟩
    · show st.file.num_direct + 1 = min (st.total_blocks + 1) MAX_DIRECT_BLOCKS
      rw [hnd]
      rw [MAX_DIRECT_BLOCKS_eq] at h ⊢
      omega
    · show st.indirect_count = min (st.total_blocks + 1 - MAX_DIRECT_BLOCKS) PTRS_PER_BLOCK
      rw [hic]
      rw [MAX_DIRECT_BLOCKS_eq] at h ⊢
      omega
    · left
      refine ⟨?_, h2, h3, h4, h5⟩
      show st.total_blocks + 1 ≤ MAX_DIRECT_BLOCKS
      rw [MAX_DIRECT_BLOCKS_eq] at h ⊢
      omega
  · exfalso
    rw [MAX_DIRECT_BLOCKS_eq] at h hgt
    omega

/-- Invariant preservation, single-indirect range. -/
theorem stepInv_single (st : AddLoopState) (chunk : List ℕ)
    (hinv : LoopInv st)
    (hd : ¬ st.total_blocks < MAX_DIRECT_BLOCKS)
    (hs : st.total_blocks < MAX_DIRECT_BLOCKS + PTRS_PER_BLOCK) :
    LoopInv (addLoopStep st chunk) := by
  obtain ⟨hlen, hbit0, hnd, hic, hphase⟩ := hinv
  have hdv : 1017 ≤ st.total_blocks := by rw [MAX_DIRECT_BLOCKS_eq] at hd; omega
  have hsv : st.total_blocks < 2041 := by
    rw [MAX_DIRECT_BLOCKS_eq, PTRS_PER_BLOCK_eq] at hs; omega
  have hb0 : bitT st.fs 0 := hbit0 (by omega)
  have hdata0 : dataId st ≠ 0 := dataId_ne st hb0
  rcases hphase with ⟨h1, h2, h3, h4, h5⟩ | ⟨hgt, ib, hsing, hrest⟩
  · -- first single iteration: total_blocks = 1017
    have hn : st.total_blocks = 1017 := by rw [MAX_DIRECT_BLOCKS_eq] at h1; omega
    rw [addLoopStep_single_first st chunk hd hs h2]
    have hlenA := afterData_len st chunk hlen
    have hibbit : bitT (allocate_block (afterData st chunk)).2
        (allocate_block (afterData st chunk)).1 := allocate_block_bit_self _
    have hib0 : (allocate_block (afterData st chunk)).1 ≠ 0 :=
      allocate_block_ne (afterData st chunk) (afterData_bit0 st chunk)
    have hlt : (allocate_block (afterData st chunk)).1
        < (allocate_block (afterData st chunk)).2.disk.length := by
      rw [allocate_block_len _ hlenA]; exact allocate_block_lt _
    have hic0 : st.indirect_count = 0 := by
      rw [hic, hn, MAX_DIRECT_BLOCKS_eq]
      simp
    refine ⟨?_, ?_, ?_, ?_, ?_⟩
    · show (write_block _ _ _).disk.length = (write_block _ _ _).dbm.length
      rw [write_block_dbm, write_block_disk_length]
      exact allocate_block_len _ hlenA
    · intro _
      exact allocate_block_bit0 (afterData st chunk)
    · show st.file.num_direct = min (st.total_blocks + 1) MAX_DIRECT_BLOCKS
      rw [hnd, hn, MAX_DIRECT_BLOCKS_eq]
      omega
    · show st.indirect_count + 1
        = min (st.total_blocks + 1 - MAX_DIRECT_BLOCKS) PTRS_PER_BLOCK
      rw [hic0, hn, MAX_DIRECT_BLOCKS_eq, PTRS_PER_BLOCK_eq]
      omega
    · right
      refine ⟨?_, (allocate_block (afterData st chunk)).1, ?_, ?_⟩
      · show MAX_DIRECT_BLOCKS < st.total_blocks + 1
        rw [hn, MAX_DIRECT_BLOCKS_eq]
        omega
      · refine ⟨rfl, hib0, hibbit, [dataId st], ?_, ?_, ?_⟩
        · show 1 = min (st.total_blocks + 1 - MAX_DIRECT_BLOCKS) PTRS_PER_BLOCK
          rw [hn, MAX_DIRECT_BLOCKS_eq, PTRS_PER_BLOCK_eq]
          omega
        · show readPtrs (write_block _ _ _) _ = _
          rw [readPtrs_write_self _ _ _ hlt, hic0,
            replicate_set_zero _ (by rw [PTRS_PER_BLOCK_eq]; omega)]
          simp
        · intro x hx
          rw [List.mem_singleton] at hx
          rw [hx]
          exact hdata0
      · left
        refine ⟨?_, h3, h4, h5⟩
        show st.total_blocks + 1 ≤ MAX_DIRECT_BLOCKS + PTRS_PER_BLOCK
        rw [hn, MAX_DIRECT_BLOCKS_eq, PTRS_PER_BLOCK_eq]
        omega
  · -- later single iterations: 1017 < total_blocks < 2041
    obtain ⟨hib, hib0, hbitib, ids, hlen_ids, hrp, hnz⟩ := hsing
    rcases hrest with ⟨hle, hdd, hl1, hl2⟩ | ⟨hgt2, _⟩
    swap
    · exfalso
      rw [MAX_DIRECT_BLOCKS_eq, PTRS_PER_BLOCK_eq] at hgt2
      omega
    have hi : ¬ st.file.indirect_block = -1 := by
      rw [hib]
      omega
    have htn : st.file.indirect_block.toNat = ib := by
      rw [hib]
      simp
    rw [addLoopStep_single_later st chunk hd hs hi, htn]
    have hgtv : 1017 < st.total_blocks := by rw [MAX_DIRECT_BLOCKS_eq] at hgt; omega
    have hlenA := afterData_len st chunk hlen
    have hbitA : bitT (afterData st chunk) ib := afterData_bit_mono st chunk hbitib
    have hltA : ib < (afterData st chunk).disk.length := bitT_lt_disk hlenA hbitA
    have hrpA : readPtrs (afterData st chunk) ib
        = ids ++ List.replicate (PTRS_PER_BLOCK - ids.length) 0 := by
      rw [afterData_readPtrs st chunk hlen hbitib, hrp]
    have hlen_idsv : ids.length = st.total_blocks - 1017 := by
      rw [hlen_ids, MAX_DIRECT_BLOCKS_eq, PTRS_PER_BLOCK_eq]
      omega
    have hicv : st.indirect_count = ids.length := by
      rw [hic, hlen_ids]
    have hmir : (ids ++ List.replicate (PTRS_PER_BLOCK - ids.length) 0).set
        st.indirect_count (dataId st)
        = (ids ++ [dataId st]) ++
          List.replicate (PTRS_PER_BLOCK - (ids.length + 1)) 0 := by
      rw [hicv, set_append_len,
        replicate_set_zero _ (by rw [PTRS_PER_BLOCK_eq]; omega)]
      rw [List.append_cons]
      have : PTRS_PER_BLOCK - ids.length - 1 = PTRS_PER_BLOCK - (ids.length + 1) := by
        omega
      rw [this]
    refine ⟨?_, ?_, ?_, ?_, ?_⟩
    · show (write_block _ _ _).disk.length = (write_block _ _ _).dbm.length
      rw [write_block_dbm, write_block_disk_length]
      exact hlenA
    · intro _
      exact afterData_bit0 st chunk
    · show st.file.num_direct = min (st.total_blocks + 1) MAX_DIRECT_BLOCKS
      rw [hnd, MAX_DIRECT_BLOCKS_eq]
      omega
    · show st.indirect_count + 1
        = min (st.total_blocks + 1 - MAX_DIRECT_BLOCKS) PTRS_PER_BLOCK
      rw [hicv, hlen_idsv, MAX_DIRECT_BLOCKS_eq, PTRS_PER_BLOCK_eq]
      omega
    · right
      refine ⟨?_, ib, ?_, ?_⟩
      · show MAX_DIRECT_BLOCKS < st.total_blocks + 1
        rw [MAX_DIRECT_BLOCKS_eq]
        omega
      · refine ⟨rfl, hib0, ?_, ids ++ [dataId st], ?_, ?_, ?_⟩
        · exact hbitA
        · show (ids ++ [dataId st]).length
            = min (st.total_blocks + 1 - MAX_DIRECT_BLOCKS) PTRS_PER_BLOCK
          rw [List.length_append, List.length_singleton, hlen_idsv,
            MAX_DIRECT_BLOCKS_eq, PTRS_PER_BLOCK_eq]
          omega
        · show readPtrs (write_block _ _ _) _ = _
          rw [readPtrs_write_self _ _ _ hltA, hrpA, hmir]
          simp
        · intro x hx
          rcases List.mem_append.mp hx with hx | hx
          · exact hnz x hx
          · rw [List.mem_singleton] at hx
            rw [hx]
            exact hdata0
      · left
        refine ⟨?_, hdd, hl1, hl2⟩
        show st.total_blocks + 1 ≤ MAX_DIRECT_BLOCKS + PTRS_PER_BLOCK
        rw [MAX_DIRECT_BLOCKS_eq, PTRS_PER_BLOCK_eq]
        omega

theorem getD_pad_zero (l1s : List ℕ) (m i : ℕ) (h : l1s.length ≤ i) :
    (l1s ++ List.replicate m 0).getD i 0 = 0 := by
  rw [List.getD_eq_getElem?_getD, List.getElem?_append_right h]
  by_cases h2 : i - l1s.length < m
  · rw [List.getElem?_replicate, if_pos h2]
    rfl
  · rw [List.getElem?_eq_none (by simpa using h2)]
    rfl

theorem getD_append_self (l1s : List ℕ) (x : ℕ) (t : List ℕ) :
    (l1s ++ x :: t).getD l1s.length 0 = x := by
  rw [List.getD_eq_getElem?_getD, List.getElem?_append_right (le_refl _)]
  simp

theorem allocate_block_disk_mono (fs : FS) :
    fs.disk.length ≤ (allocate_block fs).2.disk.length := by
  unfold allocate_block
  rcases find_free_bit fs.dbm fs.dbm.length with _ | i <;> simp

/-! Chain lemmas for the first double iteration. -/

theorem afterDib_len (st : AddLoopState) (chunk : List ℕ)
    (hlen : st.fs.disk.length = st.fs.dbm.length) :
    (afterDib st chunk).disk.length = (afterDib st chunk).dbm.length := by
  rw [afterDib, write_block_dbm, write_block_disk_length]
  exact allocate_block_len _ (afterData_len st chunk hlen)

theorem afterDib_bit (st : AddLoopState) (chunk : List ℕ) {x : ℕ}
    (hx : bitT st.fs x) : bitT (afterDib st chunk) x :=
  allocate_block_bit_mono _ (afterData_bit_mono st chunk hx)

theorem afterDib_bit0 (st : AddLoopState) (chunk : List ℕ) :
    bitT (afterDib st chunk) 0 := allocate_block_bit0 _

theorem afterDib_bit_self (st : AddLoopState) (chunk : List ℕ) :
    bitT (afterDib st chunk) (dibIdF st chunk) := allocate_block_bit_self _

theorem afterDib_readPtrs (st : AddLoopState) (chunk : List ℕ) {x : ℕ}
    (hlen : st.fs.disk.length = st.fs.dbm.length)
    (hx : bitT st.fs x) (hxd : x ≠ dibIdF st chunk) :
    readPtrs (afterDib st chunk) x = readPtrs st.fs x := by
  have hxd' : x ≠ (allocate_block (afterData st chunk)).1 := hxd
  rw [afterDib, readPtrs_write_ne _ _ _ _ hxd',
    readPtrs_alloc (afterData_len st chunk hlen) (afterData_bit_mono st chunk hx),
    afterData_readPtrs st chunk hlen hx]

theorem afterL1F_len (st : AddLoopState) (chunk : List ℕ)
    (hlen : st.fs.disk.length = st.fs.dbm.length) :
    (afterL1F st chunk).disk.length = (afterL1F st chunk).dbm.length := by
  rw [afterL1F, write_block_dbm, write_block_disk_length]
  exact allocate_block_len _ (afterDib_len st chunk hlen)

theorem afterL1F_bit (st : AddLoopState) (chunk : List ℕ) {x : ℕ}
    (hx : bitT (afterDib st chunk) x) : bitT (afterL1F st chunk) x :=
  allocate_block_bit_mono _ hx

theorem afterL1F_bit_self (st : AddLoopState) (chunk : List ℕ) :
    bitT (afterL1F st chunk) (l1IdF st chunk) := allocate_block_bit_self _

theorem afterL1F_readPtrs (st : AddLoopState) (chunk : List ℕ) {x : ℕ}
    (hlen : st.fs.disk.length = st.fs.dbm.length)
    (hx : bitT (afterDib st chunk) x) (hxl : x ≠ l1IdF st chunk) :
    readPtrs (afterL1F st chunk) x = readPtrs (afterDib st chunk) x := by
  rw [afterL1F, readPtrs_write_ne _ _ _ _ hxl,
    readPtrs_alloc (afterDib_len st chunk hlen) hx]

theorem afterL1F_readPtrs_self (st : AddLoopState) (chunk : List ℕ)
    (hlen : st.fs.disk.length = st.fs.dbm.length) :
    readPtrs (afterL1F st chunk) (l1IdF st chunk) = List.replicate PTRS_PER_BLOCK 0 := by
  rw [afterL1F, readPtrs_write_self]
  rw [allocate_block_len _ (afterDib_len st chunk hlen)]
  exact allocate_block_lt _

theorem l1IdF_lt (st : AddLoopState) (chunk : List ℕ)
    (hlen : st.fs.disk.length = st.fs.dbm.length) :
    l1IdF st chunk < (afterL1F st chunk).disk.length := by
  rw [afterL1F, write_block_disk_length, allocate_block_len _ (afterDib_len st chunk hlen)]
  exact allocate_block_lt _

theorem dibIdF_lt (st : AddLoopState) (chunk : List ℕ)
    (hlen : st.fs.disk.length = st.fs.dbm.length) :
    dibIdF st chunk < (afterL1F st chunk).disk.length := by
  rw [afterL1F, write_block_disk_length]
  calc dibIdF st chunk < (allocate_block (afterData st chunk)).2.disk.length := by
        rw [allocate_block_len _ (afterData_len st chunk hlen)]
        exact allocate_block_lt _
    _ = (afterDib st chunk).disk.length := by
        rw [afterDib, write_block_disk_length]
    _ ≤ (allocate_block (afterDib st chunk)).2.disk.length :=
        allocate_block_disk_mono _

/-! Chain lemmas for the later double iterations. -/

theorem afterL1L_len (st : AddLoopState) (chunk : List ℕ)
    (hlen : st.fs.disk.length = st.fs.dbm.length) :
    (afterL1L st chunk).disk.length = (afterL1L st chunk).dbm.length := by
  rw [afterL1L, write_block_dbm, write_block_disk_length]
  exact allocate_block_len _ (afterData_len st chunk hlen)

theorem afterL1L_bit (st : AddLoopState) (chunk : List ℕ) {x : ℕ}
    (hx : bitT st.fs x) : bitT (afterL1L st chunk) x :=
  allocate_block_bit_mono _ (afterData_bit_mono st chunk hx)

theorem afterL1L_bit0 (st : AddLoopState) (chunk : List ℕ) :
    bitT (afterL1L st chunk) 0 := allocate_block_bit0 _

theorem afterL1L_bit_self (st : AddLoopState) (chunk : List ℕ) :
    bitT (afterL1L st chunk) (l1IdL st chunk) := allocate_block_bit_self _

theorem afterL1L_readPtrs (st : AddLoopState) (chunk : List ℕ) {x : ℕ}
    (hlen : st.fs.disk.length = st.fs.dbm.length)
    (hx : bitT st.fs x) (hxl : x ≠ l1IdL st chunk) :
    readPtrs (afterL1L st chunk) x = readPtrs st.fs x := by
  rw [afterL1L, readPtrs_write_ne _ _ _ _ hxl,
    readPtrs_alloc (afterData_len st chunk hlen) (afterData_bit_mono st chunk hx),
    afterData_readPtrs st chunk hlen hx]

theorem afterL1L_readPtrs_self (st : AddLoopState) (chunk : List ℕ)
    (hlen : st.fs.disk.length = st.fs.dbm.length) :
    readPtrs (afterL1L st chunk) (l1IdL st chunk) = List.replicate PTRS_PER_BLOCK 0 := by
  rw [afterL1L, readPtrs_write_self]
  rw [allocate_block_len _ (afterData_len st chunk hlen)]
  exact allocate_block_lt _

theorem l1IdL_lt (st : AddLoopState) (chunk : List ℕ)
    (hlen : st.fs.disk.length = st.fs.dbm.length) :
    l1IdL st chunk < (afterL1L st chunk).disk.length := by
  rw [afterL1L, write_block_disk_length, allocate_block_len _ (afterData_len st chunk hlen)]
  exact allocate_block_lt _

theorem l1IdL_ne (st : AddLoopState) (chunk : List ℕ) {x : ℕ}
    (hx : bitT st.fs x) : l1IdL st chunk ≠ x :=
  allocate_block_ne _ (afterData_bit_mono st chunk hx)

theorem l1IdL_ne_zero (st : AddLoopState) (chunk : List ℕ)
    (h0 : bitT st.fs 0) : l1IdL st chunk ≠ 0 :=
  allocate_block_ne _ (afterData_bit_mono st chunk h0)

/-- Invariant preservation, double-indirect range (first iteration,
`total_blocks = 2041`). -/
theorem stepInv_double_first (st : AddLoopState) (chunk : List ℕ)
    (hlen : st.fs.disk.length = st.fs.dbm.length)
    (hbit0 : 1 ≤ st.total_blocks → bitT st.fs 0)
    (hnd : st.file.num_direct = min st.total_blocks MAX_DIRECT_BLOCKS)
    (hic : st.indirect_count = min (st.total_blocks - MAX_DIRECT_BLOCKS) PTRS_PER_BLOCK)
    (hd : ¬ st.total_blocks < MAX_DIRECT_BLOCKS)
    (hs : ¬ st.total_blocks < MAX_DIRECT_BLOCKS + PTRS_PER_BLOCK)
    (ib : ℕ) (hib : st.file.indirect_block = (ib : ℤ)) (hib0 : ib ≠ 0)
    (hbitib : bitT st.fs ib) (ids : List ℕ)
    (hlen_ids : ids.length = min (st.total_blocks - MAX_DIRECT_BLOCKS) PTRS_PER_BLOCK)
    (hrp : readPtrs st.fs ib = ids ++ List.replicate (PTRS_PER_BLOCK - ids.length) 0)
    (hnz : ∀ x ∈ ids, x ≠ 0)
    (hle : st.total_blocks ≤ MAX_DIRECT_BLOCKS + PTRS_PER_BLOCK)
    (hdd : st.file.double_indirect_block = -1)
    (hl10 : st.level1 = 0) (hl20 : st.level2 = 0) :
    LoopInv (addLoopStep st chunk) := by
  have hn : st.total_blocks = 2041 := by
    rw [MAX_DIRECT_BLOCKS_eq, PTRS_PER_BLOCK_eq] at hle hs
    omega
  have hb0 : bitT st.fs 0 := hbit0 (by omega)
  have hdata0 : dataId st ≠ 0 := dataId_ne st hb0
  rw [addLoopStep_double_first st chunk hd hs hdd, hl10]
  rw [replicate_set_zero _ (by rw [PTRS_PER_BLOCK_eq]; omega)]
  rw [List.getD_cons_zero]
  rw [afterL1F_readPtrs_self st chunk hlen,
    replicate_set_zero _ (by rw [PTRS_PER_BLOCK_eq]; omega)]
  have hd0 : dibIdF st chunk ≠ 0 := allocate_block_ne _ (afterData_bit0 st chunk)
  have hdbit : bitT (afterDib st chunk) (dibIdF st chunk) := afterDib_bit_self st chunk
  have hdne_ib : dibIdF st chunk ≠ ib :=
    allocate_block_ne _ (afterData_bit_mono st chunk hbitib)
  have hl0 : l1IdF st chunk ≠ 0 := allocate_block_ne _ (afterDib_bit0 st chunk)
  have hlne_ib : l1IdF st chunk ≠ ib :=
    allocate_block_ne _ (afterDib_bit st chunk hbitib)
  have hlne_d : l1IdF st chunk ≠ dibIdF st chunk := allocate_block_ne _ hdbit
  have hlenF := afterL1F_len st chunk hlen
  have hrpd : readPtrs
      (write_block
        (write_block (afterL1F st chunk) (l1IdF st chunk)
          (.ptrs (dataId st :: List.replicate (PTRS_PER_BLOCK - 1) 0)))
        (dibIdF st chunk)
        (.ptrs (l1IdF st chunk :: List.replicate (PTRS_PER_BLOCK - 1) 0)))
      (dibIdF st chunk)
      = l1IdF st chunk :: List.replicate (PTRS_PER_BLOCK - 1) 0 := by
    apply readPtrs_write_self
    rw [write_block_disk_length]
    exact dibIdF_lt st chunk hlen
  have hrpl : readPtrs
      (write_block
        (write_block (afterL1F st chunk) (l1IdF st chunk)
          (.ptrs (dataId st :: List.replicate (PTRS_PER_BLOCK - 1) 0)))
        (dibIdF st chunk)
        (.ptrs (l1IdF st chunk :: List.replicate (PTRS_PER_BLOCK - 1) 0)))
      (l1IdF st chunk)
      = dataId st :: List.replicate (PTRS_PER_BLOCK - 1) 0 := by
    rw [readPtrs_write_ne _ _ _ _ hlne_d]
    exact readPtrs_write_self _ _ _ (l1IdF_lt st chunk hlen)
  have hrpib : readPtrs
      (write_block
        (write_block (afterL1F st chunk) (l1IdF st chunk)
          (.ptrs (dataId st :: List.replicate (PTRS_PER_BLOCK - 1) 0)))
        (dibIdF st chunk)
        (.ptrs (l1IdF st chunk :: List.replicate (PTRS_PER_BLOCK - 1) 0)))
      ib = ids ++ List.replicate (PTRS_PER_BLOCK - ids.length) 0 := by
    rw [readPtrs_write_ne _ _ _ _ (Ne.symm hdne_ib),
      readPtrs_write_ne _ _ _ _ (Ne.symm hlne_ib),
      afterL1F_readPtrs st chunk hlen (afterDib_bit st chunk hbitib) (Ne.symm hlne_ib),
      afterDib_readPtrs st chunk hlen hbitib (Ne.symm hdne_ib), hrp]
  refine ⟨?_, ?_, ?_, ?_, ?_⟩
  · show (write_block _ _ _).disk.length = (write_block _ _ _).dbm.length
    rw [write_block_dbm, write_block_dbm, write_block_disk_length,
      write_block_disk_length]
    exact hlenF
  · intro _
    exact allocate_block_bit0 (afterDib st chunk)
  · show st.file.num_direct = min (st.total_blocks + 1) MAX_DIRECT_BLOCKS
    rw [hnd, hn, MAX_DIRECT_BLOCKS_eq]
    omega
  · show st.indirect_count
      = min (st.total_blocks + 1 - MAX_DIRECT_BLOCKS) PTRS_PER_BLOCK
    rw [hic, hn, MAX_DIRECT_BLOCKS_eq, PTRS_PER_BLOCK_eq]
    omega
  · right
    refine ⟨?_, ib, ?_, ?_⟩
    · show MAX_DIRECT_BLOCKS < st.total_blocks + 1
      rw [hn, MAX_DIRECT_BLOCKS_eq]
      omega
    · refine ⟨hib, hib0, ?_, ids, ?_, ?_, hnz⟩
      · exact afterL1F_bit st chunk (afterDib_bit st chunk hbitib)
      · show ids.length = min (st.total_blocks + 1 - MAX_DIRECT_BLOCKS) PTRS_PER_BLOCK
        rw [hlen_ids, hn, MAX_DIRECT_BLOCKS_eq, PTRS_PER_BLOCK_eq]
        omega
      · exact hrpib
    · right
      refine ⟨?_, ?_, rfl, dibIdF st chunk, ?_, hd0, ?_, hdne_ib,
        [l1IdF st chunk], ?_, ?_, ?_, ?_, ?_, ?_⟩
      · show MAX_DIRECT_BLOCKS + PTRS_PER_BLOCK < st.total_blocks + 1
        rw [hn, MAX_DIRECT_BLOCKS_eq, PTRS_PER_BLOCK_eq]
        omega
      · show 0 + 1 = st.total_blocks + 1 - (MAX_DIRECT_BLOCKS + PTRS_PER_BLOCK)
        rw [hn, MAX_DIRECT_BLOCKS_eq, PTRS_PER_BLOCK_eq]
      · rfl
      · exact afterL1F_bit st chunk hdbit
      · show 1 = min (st.total_blocks + 1 - (MAX_DIRECT_BLOCKS + PTRS_PER_BLOCK))
          PTRS_PER_BLOCK
        rw [hn, MAX_DIRECT_BLOCKS_eq, PTRS_PER_BLOCK_eq]
        omega
      · rw [hrpd]
        simp
      · simp
      · simp [Ne.symm hlne_ib]
      · simp [Ne.symm hlne_d]
      · intro l hl
        rw [List.mem_singleton] at hl
        subst hl
        exact ⟨hl0, afterL1F_bit_self st chunk, dataId st, hrpl, hdata0⟩

/-- Invariant preservation, double-indirect range (later iterations,
`total_blocks > 2041`).  Every such iteration opens a fresh level-1 block,
because the "need a new level 1 block" condition consults the next,
still-zero slot of the double-indirect block; once `level1` exceeds the
block's 1024 slots the C code reads and writes out of bounds, which the
model renders as the `getD` default 0 and a dropped `set`. -/
theorem stepInv_double_later (st : AddLoopState) (chunk : List ℕ)
    (hlen : st.fs.disk.length = st.fs.dbm.length)
    (hbit0 : 1 ≤ st.total_blocks → bitT st.fs 0)
    (hnd : st.file.num_direct = min st.total_blocks MAX_DIRECT_BLOCKS)
    (hic : st.indirect_count = min (st.total_blocks - MAX_DIRECT_BLOCKS) PTRS_PER_BLOCK)
    (hd : ¬ st.total_blocks < MAX_DIRECT_BLOCKS)
    (hs : ¬ st.total_blocks < MAX_DIRECT_BLOCKS + PTRS_PER_BLOCK)
    (ib : ℕ) (hib : st.file.indirect_block = (ib : ℤ)) (hib0 : ib ≠ 0)
    (hbitib : bitT st.fs ib) (ids : List ℕ)
    (hlen_ids : ids.length = min (st.total_blocks - MAX_DIRECT_BLOCKS) PTRS_PER_BLOCK)
    (hrp : readPtrs st.fs ib = ids ++ List.replicate (PTRS_PER_BLOCK - ids.length) 0)
    (hnz : ∀ x ∈ ids, x ≠ 0)
    (hgt2 : MAX_DIRECT_BLOCKS + PTRS_PER_BLOCK < st.total_blocks)
    (hl1 : st.level1 = st.total_blocks - (MAX_DIRECT_BLOCKS + PTRS_PER_BLOCK))
    (hl2 : st.level2 = 1)
    (d : ℕ) (hdf : st.file.double_indirect_block = (d : ℤ)) (hd0 : d ≠ 0)
    (hbitd : bitT st.fs d) (hdne_ib : d ≠ ib)
    (l1s : List ℕ)
    (hlen_l1s : l1s.length
      = min (st.total_blocks - (MAX_DIRECT_BLOCKS + PTRS_PER_BLOCK)) PTRS_PER_BLOCK)
    (hrpd : readPtrs st.fs d = l1s ++ List.replicate (PTRS_PER_BLOCK - l1s.length) 0)
    (hnodup : l1s.Nodup) (hibnot : ib ∉ l1s) (hdnot : d ∉ l1s)
    (hl1props : ∀ l ∈ l1s, l ≠ 0 ∧ bitT st.fs l ∧
      ∃ b, readPtrs st.fs l = b :: List.replicate (PTRS_PER_BLOCK - 1) 0 ∧ b ≠ 0) :
    LoopInv (addLoopStep st chunk) := by
  have hb0 : bitT st.fs 0 := hbit0 (by rw [MAX_DIRECT_BLOCKS_eq] at hd; omega)
  have hdata0 : dataId st ≠ 0 := dataId_ne st hb0
  have hdd : ¬ st.file.double_indirect_block = -1 := by
    rw [hdf]
    omega
  have htn : dibN st = d := by
    rw [dibN, hdf]
    simp
  have hlle : l1s.length ≤ st.level1 := by
    rw [hlen_l1s, hl1]
    exact Nat.min_le_left _ _
  have hrpdA : readPtrs (afterData st chunk) (dibN st)
      = l1s ++ List.replicate (PTRS_PER_BLOCK - l1s.length) 0 := by
    rw [htn, afterData_readPtrs st chunk hlen hbitd, hrpd]
  have hcond : (readPtrs (afterData st chunk) (dibN st)).getD st.level1 0 = 0 := by
    rw [hrpdA]
    exact getD_pad_zero _ _ _ hlle
  rw [addLoopStep_double_later st chunk hd hs hdd hcond, htn,
    afterData_readPtrs st chunk hlen hbitd, hrpd]
  -- shared facts about the freshly opened level-1 block
  have hlne_d : l1IdL st chunk ≠ d := l1IdL_ne st chunk hbitd
  have hlne_ib : l1IdL st chunk ≠ ib := l1IdL_ne st chunk hbitib
  have hl0 : l1IdL st chunk ≠ 0 := l1IdL_ne_zero st chunk hb0
  have hlne_mem : ∀ x ∈ l1s, l1IdL st chunk ≠ x :=
    fun x hx => l1IdL_ne st chunk (hl1props x hx).2.1
  have hlenL := afterL1L_len st chunk hlen
  by_cases hk : st.level1 < PTRS_PER_BLOCK
  · -- still inside the 1024 slots of the double-indirect block
    have hlenv : l1s.length = st.level1 := by
      rw [hlen_l1s, hl1]
      rw [hl1] at hk
      omega
    have hset : (l1s ++ List.replicate (PTRS_PER_BLOCK - l1s.length) 0).set
        st.level1 (l1IdL st chunk)
        = l1s ++ l1IdL st chunk ::
          List.replicate (PTRS_PER_BLOCK - l1s.length - 1) 0 := by
      rw [← hlenv, set_append_len,
        replicate_set_zero _ (by rw [← hlenv] at hk; omega)]
    have hgd : (l1s ++ l1IdL st chunk ::
        List.replicate (PTRS_PER_BLOCK - l1s.length - 1) 0).getD st.level1 0
        = l1IdL st chunk := by
      rw [← hlenv]
      exact getD_append_self _ _ _
    rw [hset, hgd, afterL1L_readPtrs_self st chunk hlen,
      replicate_set_zero _ (by rw [PTRS_PER_BLOCK_eq]; omega)]
    have hrpd7 : readPtrs
        (write_block
          (write_block (afterL1L st chunk) (l1IdL st chunk)
            (.ptrs (dataId st :: List.replicate (PTRS_PER_BLOCK - 1) 0)))
          d (.ptrs (l1s ++ l1IdL st chunk ::
            List.replicate (PTRS_PER_BLOCK - l1s.length - 1) 0)))
        d = l1s ++ l1IdL st chunk ::
          List.replicate (PTRS_PER_BLOCK - l1s.length - 1) 0 := by
      apply readPtrs_write_self
      rw [write_block_disk_length]
      exact bitT_lt_disk hlenL (afterL1L_bit st chunk hbitd)
    have hrpl7 : readPtrs
        (write_block
          (write_block (afterL1L st chunk) (l1IdL st chunk)
            (.ptrs (dataId st :: List.replicate (PTRS_PER_BLOCK - 1) 0)))
          d (.ptrs (l1s ++ l1IdL st chunk ::
            List.replicate (PTRS_PER_BLOCK - l1s.length - 1) 0)))
        (l1IdL st chunk) = dataId st :: List.replicate (PTRS_PER_BLOCK - 1) 0 := by
      rw [readPtrs_write_ne _ _ _ _ hlne_d]
      exact readPtrs_write_self _ _ _ (l1IdL_lt st chunk hlen)
    have hrpold : ∀ x ∈ l1s, readPtrs
        (write_block
          (write_block (afterL1L st chunk) (l1IdL st chunk)
            (.ptrs (dataId st :: List.replicate (PTRS_PER_BLOCK - 1) 0)))
          d (.ptrs (l1s ++ l1IdL st chunk ::
            List.replicate (PTRS_PER_BLOCK - l1s.length - 1) 0)))
        x = readPtrs st.fs x := by
      intro x hx
      rw [readPtrs_write_ne _ _ _ _ (fun he => hdnot (by rw [← he]; exact hx)),
        readPtrs_write_ne _ _ _ _ (Ne.symm (hlne_mem x hx)),
        afterL1L_readPtrs st chunk hlen (hl1props x hx).2.1
          (Ne.symm (hlne_mem x hx))]
    have hrpib7 : readPtrs
        (write_block
          (write_block (afterL1L st chunk) (l1IdL st chunk)
            (.ptrs (dataId st :: List.replicate (PTRS_PER_BLOCK - 1) 0)))
          d (.ptrs (l1s ++ l1IdL st chunk ::
            List.replicate (PTRS_PER_BLOCK - l1s.length - 1) 0)))
        ib = ids ++ List.replicate (PTRS_PER_BLOCK - ids.length) 0 := by
      rw [readPtrs_write_ne _ _ _ _ (Ne.symm hdne_ib),
        readPtrs_write_ne _ _ _ _ (Ne.symm hlne_ib),
        afterL1L_readPtrs st chunk hlen hbitib (Ne.symm hlne_ib), hrp]
    refine ⟨?_, ?_, ?_, ?_, ?_⟩
    · show (write_block _ _ _).disk.length = (write_block _ _ _).dbm.length
      rw [write_block_dbm, write_block_dbm, write_block_disk_length,
        write_block_disk_length]
      exact hlenL
    · intro _
      exact afterL1L_bit0 st chunk
    · show st.file.num_direct = min (st.total_blocks + 1) MAX_DIRECT_BLOCKS
      rw [hnd, MAX_DIRECT_BLOCKS_eq]
      rw [MAX_DIRECT_BLOCKS_eq] at hd
      omega
    · show st.indirect_count
        = min (st.total_blocks + 1 - MAX_DIRECT_BLOCKS) PTRS_PER_BLOCK
      rw [hic, MAX_DIRECT_BLOCKS_eq, PTRS_PER_BLOCK_eq]
      rw [MAX_DIRECT_BLOCKS_eq, PTRS_PER_BLOCK_eq] at hgt2
      omega
    · right
      refine ⟨?_, ib, ?_, ?_⟩
      · show MAX_DIRECT_BLOCKS < st.total_blocks + 1
        rw [MAX_DIRECT_BLOCKS_eq]
        rw [MAX_DIRECT_BLOCKS_eq] at hd
        omega
      · refine ⟨hib, hib0, ?_, ids, ?_, hrpib7, hnz⟩
        · exact afterL1L_bit st chunk hbitib
        · show ids.length
            = min (st.total_blocks + 1 - MAX_DIRECT_BLOCKS) PTRS_PER_BLOCK
          rw [hlen_ids, MAX_DIRECT_BLOCKS_eq, PTRS_PER_BLOCK_eq]
          rw [MAX_DIRECT_BLOCKS_eq, PTRS_PER_BLOCK_eq] at hgt2
          omega
      · right
        refine ⟨?_, ?_, rfl, d, rfl, hd0, ?_, hdne_ib,
          l1s ++ [l1IdL st chunk], ?_, ?_, ?_, ?_, ?_, ?_⟩
        · show MAX_DIRECT_BLOCKS + PTRS_PER_BLOCK < st.total_blocks + 1
          rw [MAX_DIRECT_BLOCKS_eq, PTRS_PER_BLOCK_eq]
          rw [MAX_DIRECT_BLOCKS_eq, PTRS_PER_BLOCK_eq] at hgt2
          omega
        · show st.level1 + 1
            = st.total_blocks + 1 - (MAX_DIRECT_BLOCKS + PTRS_PER_BLOCK)
          rw [hl1, MAX_DIRECT_BLOCKS_eq, PTRS_PER_BLOCK_eq]
          rw [MAX_DIRECT_BLOCKS_eq, PTRS_PER_BLOCK_eq] at hgt2
          omega
        · exact afterL1L_bit st chunk hbitd
        · show (l1s ++ [l1IdL st chunk]).length
            = min (st.total_blocks + 1 - (MAX_DIRECT_BLOCKS + PTRS_PER_BLOCK))
              PTRS_PER_BLOCK
          rw [List.length_append, List.length_singleton, hlenv, hl1,
            MAX_DIRECT_BLOCKS_eq, PTRS_PER_BLOCK_eq]
          rw [MAX_DIRECT_BLOCKS_eq, PTRS_PER_BLOCK_eq] at hgt2
          rw [hl1, MAX_DIRECT_BLOCKS_eq, PTRS_PER_BLOCK_eq] at hk
          omega
        · rw [hrpd7, List.append_cons]
          have : PTRS_PER_BLOCK - l1s.length - 1
              = PTRS_PER_BLOCK - (l1s ++ [l1IdL st chunk]).length := by
            rw [List.length_append, List.length_singleton]
            omega
          rw [this]
        · rw [List.nodup_append]
          refine ⟨hnodup, by simp, ?_⟩
          intro a ha
          simp only [List.mem_singleton]
          exact fun he => (hlne_mem a ha) (by rw [he])
        · rw [List.mem_append]
          rintro (h | h)
          · exact hibnot h
          · rw [List.mem_singleton] at h
            exact hlne_ib (by rw [h])
        · rw [List.mem_append]
          rintro (h | h)
          · exact hdnot h
          · rw [List.mem_singleton] at h
            exact hlne_d (by rw [h])
        · intro l hl
          rcases List.mem_append.mp hl with hl | hl
          · obtain ⟨hz, hb, b, hrpb, hbz⟩ := hl1props l hl
            exact ⟨hz, afterL1L_bit st chunk hb, b, by rw [hrpold l hl, hrpb], hbz⟩
          · rw [List.mem_singleton] at hl
            subst hl
            exact ⟨hl0, afterL1L_bit_self st chunk, dataId st, hrpl7, hdata0⟩
  · -- level1 has run past the 1024 slots (out-of-bounds region of the C code)
    have hlen1024 : l1s.length = PTRS_PER_BLOCK := by
      rw [hlen_l1s]
      rw [hl1] at hk
      omega
    have hsetid : (l1s ++ List.replicate (PTRS_PER_BLOCK - l1s.length) 0).set
        st.level1 (l1IdL st chunk)
        = l1s ++ List.replicate (PTRS_PER_BLOCK - l1s.length) 0 := by
      apply List.set_eq_of_length_le
      rw [List.length_append, List.length_replicate, hlen1024]
      omega
    have hgd0 : (l1s ++ List.replicate (PTRS_PER_BLOCK - l1s.length) 0).getD
        st.level1 0 = 0 := getD_pad_zero _ _ _ hlle
    rw [hsetid, hgd0]
    have hrpd7 : readPtrs
        (write_block
          (write_block (afterL1L st chunk) 0
            (.ptrs ((readPtrs (afterL1L st chunk) 0).set 0 (dataId st))))
          d (.ptrs (l1s ++ List.replicate (PTRS_PER_BLOCK - l1s.length) 0)))
        d = l1s ++ List.replicate (PTRS_PER_BLOCK - l1s.length) 0 := by
      apply readPtrs_write_self
      rw [write_block_disk_length]
      exact bitT_lt_disk hlenL (afterL1L_bit st chunk hbitd)
    have hrpold : ∀ x ∈ l1s, readPtrs
        (write_block
          (write_block (afterL1L st chunk) 0
            (.ptrs ((readPtrs (afterL1L st chunk) 0).set 0 (dataId st))))
          d (.ptrs (l1s ++ List.replicate (PTRS_PER_BLOCK - l1s.length) 0)))
        x = readPtrs st.fs x := by
      intro x hx
      rw [readPtrs_write_ne _ _ _ _ (fun he => hdnot (by rw [← he]; exact hx)),
        readPtrs_write_ne _ _ _ _ (hl1props x hx).1,
        afterL1L_readPtrs st chunk hlen (hl1props x hx).2.1
          (Ne.symm (hlne_mem x hx))]
    have hrpib7 : readPtrs
        (write_block
          (write_block (afterL1L st chunk) 0
            (.ptrs ((readPtrs (afterL1L st chunk) 0).set 0 (dataId st))))
          d (.ptrs (l1s ++ List.replicate (PTRS_PER_BLOCK - l1s.length) 0)))
        ib = ids ++ List.replicate (PTRS_PER_BLOCK - ids.length) 0 := by
      rw [readPtrs_write_ne _ _ _ _ (Ne.symm hdne_ib),
        readPtrs_write_ne _ _ _ _ hib0,
        afterL1L_readPtrs st chunk hlen hbitib (Ne.symm hlne_ib), hrp]
    refine ⟨?_, ?_, ?_, ?_, ?_⟩
    · show (write_block _ _ _).disk.length = (write_block _ _ _).dbm.length
      rw [write_block_dbm, write_block_dbm, write_block_disk_length,
        write_block_disk_length]
      exact hlenL
    · intro _
      exact afterL1L_bit0 st chunk
    · show st.file.num_direct = min (st.total_blocks + 1) MAX_DIRECT_BLOCKS
      rw [hnd, MAX_DIRECT_BLOCKS_eq]
      rw [MAX_DIRECT_BLOCKS_eq] at hd
      omega
    · show st.indirect_count
        = min (st.total_blocks + 1 - MAX_DIRECT_BLOCKS) PTRS_PER_BLOCK
      rw [hic, MAX_DIRECT_BLOCKS_eq, PTRS_PER_BLOCK_eq]
      rw [MAX_DIRECT_BLOCKS_eq, PTRS_PER_BLOCK_eq] at hgt2
      omega
    · right
      refine ⟨?_, ib, ?_, ?_⟩
      · show MAX_DIRECT_BLOCKS < st.total_blocks + 1
        rw [MAX_DIRECT_BLOCKS_eq]
        rw [MAX_DIRECT_BLOCKS_eq] at hd
        omega
      · refine ⟨hib, hib0, ?_, ids, ?_, hrpib7, hnz⟩
        · exact afterL1L_bit st chunk hbitib
        · show ids.length
            = min (st.total_blocks + 1 - MAX_DIRECT_BLOCKS) PTRS_PER_BLOCK
          rw [hlen_ids, MAX_DIRECT_BLOCKS_eq, PTRS_PER_BLOCK_eq]
          rw [MAX_DIRECT_BLOCKS_eq, PTRS_PER_BLOCK_eq] at hgt2
          omega
      · right
        refine ⟨?_, ?_, rfl, d, rfl, hd0, ?_, hdne_ib, l1s, ?_, hrpd7, hnodup,
          hibnot, hdnot, ?_⟩
        · show MAX_DIRECT_BLOCKS + PTRS_PER_BLOCK < st.total_blocks + 1
          rw [MAX_DIRECT_BLOCKS_eq, PTRS_PER_BLOCK_eq]
          rw [MAX_DIRECT_BLOCKS_eq, PTRS_PER_BLOCK_eq] at hgt2
          omega
        · show st.level1 + 1
            = st.total_blocks + 1 - (MAX_DIRECT_BLOCKS + PTRS_PER_BLOCK)
          rw [hl1, MAX_DIRECT_BLOCKS_eq, PTRS_PER_BLOCK_eq]
          rw [MAX_DIRECT_BLOCKS_eq, PTRS_PER_BLOCK_eq] at hgt2
          omega
        · exact afterL1L_bit st chunk hbitd
        · show l1s.length
            = min (st.total_blocks + 1 - (MAX_DIRECT_BLOCKS + PTRS_PER_BLOCK))
              PTRS_PER_BLOCK
          rw [hlen1024, PTRS_PER_BLOCK_eq, MAX_DIRECT_BLOCKS_eq]
          rw [MAX_DIRECT_BLOCKS_eq, PTRS_PER_BLOCK_eq] at hgt2
          rw [hl1, MAX_DIRECT_BLOCKS_eq, PTRS_PER_BLOCK_eq] at hk
          omega
        · intro l hl
          obtain ⟨hz, hb, b, hrpb, hbz⟩ := hl1props l hl
          exact ⟨hz, afterL1L_bit st chunk hb, b, by rw [hrpold l hl, hrpb], hbz⟩

/-- Invariant preservation for one full iteration of the copy loop. -/
theorem stepInv (st : AddLoopState) (chunk : List ℕ)
    (hinv : LoopInv st) : LoopInv (addLoopStep st chunk) := by
  by_cases hd : st.total_blocks < MAX_DIRECT_BLOCKS
  · exact stepInv_direct st chunk hinv hd
  · by_cases hs : st.total_blocks < MAX_DIRECT_BLOCKS + PTRS_PER_BLOCK
    · exact stepInv_single st chunk hinv hd hs
    · obtain ⟨hlen, hbit0, hnd, hic, hphase⟩ := hinv
      rcases hphase with ⟨h1, _, _, _, _⟩ | ⟨hgt, ib, ⟨hib, hib0, hbitib, ids, hlen_ids, hrp, hnz⟩, hrest⟩
      · exfalso
        rw [MAX_DIRECT_BLOCKS_eq, PTRS_PER_BLOCK_eq] at hs
        rw [MAX_DIRECT_BLOCKS_eq] at h1
        omega
      · rcases hrest with ⟨hle, hdd, hl10, hl20⟩ |
          ⟨hgt2, hl1, hl2, d, hdf, hd0, hbitd, hdne_ib, l1s, hlen_l1s, hrpd,
            hnodup, hibnot, hdnot, hl1props⟩
        · exact stepInv_double_first st chunk hlen hbit0 hnd hic hd hs ib hib hib0
            hbitib ids hlen_ids hrp hnz hle hdd hl10 hl20
        · exact stepInv_double_later st chunk hlen hbit0 hnd hic hd hs ib hib hib0
            hbitib ids hlen_ids hrp hnz hgt2 hl1 hl2 d hdf hd0 hbitd hdne_ib
            l1s hlen_l1s hrpd hnodup hibnot hdnot hl1props

/-- Each iteration of the copy loop increments `total_blocks` by one. -/
theorem addLoopStep_total (st : AddLoopState) (chunk : List ℕ) :
    (addLoopStep st chunk).total_blocks = st.total_blocks + 1 := by
  simp only [addLoopStep]
  split
  · rfl
  · split
    · rfl
    · rfl

/-- No branch of the copy loop ever touches `triple_indirect_block`. -/
theorem addLoopStep_triple (st : AddLoopState) (chunk : List ℕ) :
    (addLoopStep st chunk).file.triple_indirect_block
      = st.file.triple_indirect_block := by
  simp only [addLoopStep]
  split
  · rfl
  · split
    · rfl
    · rfl

/-- Over the whole loop, `total_blocks` counts the chunks. -/
theorem loop_total (chunks : List (List ℕ)) :
    ∀ st : AddLoopState,
      (exfs2AddContentLoop chunks st).total_blocks
        = st.total_blocks + chunks.length := by
  induction chunks with
  | nil => intro st; simp [exfs2AddContentLoop]
  | cons c t ih =>
      intro st
      rw [exfs2AddContentLoop, List.foldl_cons]
      have := ih (addLoopStep st c)
      rw [exfs2AddContentLoop] at this
      rw [this, addLoopStep_total, List.length_cons]
      omega

/-- Over the whole loop, `triple_indirect_block` is never written. -/
theorem loop_triple (chunks : List (List ℕ)) :
    ∀ st : AddLoopState,
      (exfs2AddContentLoop chunks st).file.triple_indirect_block
        = st.file.triple_indirect_block := by
  induction chunks with
  | nil => intro st; simp [exfs2AddContentLoop]
  | cons c t ih =>
      intro st
      rw [exfs2AddContentLoop, List.foldl_cons]
      have := ih (addLoopStep st c)
      rw [exfs2AddContentLoop] at this
      rw [this, addLoopStep_triple]

/-- The loop invariant is preserved over the whole loop. -/
theorem loopInv_foldl (chunks : List (List ℕ)) :
    ∀ st : AddLoopState, LoopInv st → LoopInv (exfs2AddContentLoop chunks st) := by
  induction chunks with
  | nil => intro st h; exact h
  | cons c t ih =>
      intro st h
      rw [exfs2AddContentLoop, List.foldl_cons]
      exact ih (addLoopStep st c) (stepInv st c h)

/-- The loop invariant holds at entry of the copy loop. -/
theorem loopInv_init (fs : FS) (hlen : fs.disk.length = fs.dbm.length) :
    LoopInv (initLoopState fs) := by
  refine ⟨hlen, ?_, ?_, ?_, ?_⟩
  · intro h
    exact absurd h (by simp [initLoopState])
  · show freshFileInode.num_direct = min 0 MAX_DIRECT_BLOCKS
    simp [freshFileInode, freshDirInode]
  · show 0 = min (0 - MAX_DIRECT_BLOCKS) PTRS_PER_BLOCK
    simp
  · left
    exact ⟨Nat.zero_le _, rfl, rfl, rfl, rfl⟩
/-! ## Concrete large-file runs of the copy loop (claims C1, C2, C4) -/

/-- One full block of zero bytes, as a source chunk. -/
def zeroChunk : List ℕ := List.replicate BLOCK_SIZE 0

/-- `chunksGo` on a source of `k` full blocks of zeroes yields `k` zero
chunks, for any sufficient fuel. -/
theorem chunksGo_replicate :
    ∀ fuel k : ℕ, k ≤ fuel →
      chunksGo fuel (List.replicate (k * BLOCK_SIZE) 0)
        = List.replicate k zeroChunk
  | fuel, 0, _ => by cases fuel <;> simp [chunksGo]
  | fuel + 1, k + 1, h => by
      rw [chunksGo]
      rw [if_neg (by simp [BLOCK_SIZE])]
      rw [List.take_replicate, List.drop_replicate]
      have h1 : min BLOCK_SIZE ((k + 1) * BLOCK_SIZE) = BLOCK_SIZE := by
        have : BLOCK_SIZE ≤ (k + 1) * BLOCK_SIZE := Nat.le_mul_of_pos_left _ (by omega)
        omega
      have h2 : (k + 1) * BLOCK_SIZE - BLOCK_SIZE = k * BLOCK_SIZE := by
        rw [Nat.succ_mul]
        omega
      rw [h1, h2, chunksGo_replicate fuel k (by omega)]
      rfl

/-- The chunk sequence `fread` yields for a source of `k` full blocks of
zeroes. -/
theorem chunksOf_replicate (k : ℕ) :
    chunksOf (List.replicate (k * BLOCK_SIZE) 0) = List.replicate k zeroChunk := by
  rw [chunksOf, List.length_replicate]
  exact chunksGo_replicate _ k (Nat.le_mul_of_pos_right _ (by rw [BLOCK_SIZE]; omega))

/-- A 12 MiB source file: 3072 full blocks of zero bytes (the spec's large
file scenario). -/
def c1src : List ℕ := List.replicate (3072 * BLOCK_SIZE) 0

/-- The copy loop of `exfs2_add` run on the 12 MiB source over a fresh
filesystem. -/
def c1run : AddLoopState := exfs2AddContentLoop (chunksOf c1src) (initLoopState freshFS)

theorem freshFS_len : freshFS.disk.length = freshFS.dbm.length := by
  simp [freshFS]

theorem c1run_inv : LoopInv c1run ∧ c1run.total_blocks = 3072 := by
  constructor
  · exact loopInv_foldl (chunksOf c1src) (initLoopState freshFS)
      (loopInv_init freshFS freshFS_len)
  · show (exfs2AddContentLoop (chunksOf c1src) (initLoopState freshFS)).total_blocks = 3072
    rw [c1src, chunksOf_replicate, loop_total, List.length_replicate]
    rfl
/-- Claim C1 (refuted, code bug): the add-then-extract round trip breaks in
the double-indirect size class.  Adding a 12 MiB source (3072 blocks, the
spec's large-file scenario) drives the loop's level-1 counter to
3072 - 1017 - 1024 = 1031 > 1024 = PTRS_PER_BLOCK, i.e. the C code indexes
`double_indirect_block[1024..1030]` out of bounds; the on-disk
double-indirect block holds exactly its 1024 level-1 slots, and every
level-1 block recorded there carries exactly one data block (slot 0), so at
most 1017 + 1024 + 1024 = 3065 of the 3072 data blocks are reachable from
the inode and extraction cannot reproduce the stored bytes. -/
theorem add_extract_roundtrip_breaks_double_range :
    c1run.total_blocks = 3072 ∧
    PTRS_PER_BLOCK < c1run.level1 ∧
    (∃ d : ℕ, ∃ l1s : List ℕ,
      c1run.file.double_indirect_block = (d : ℤ) ∧
      readPtrs c1run.fs d = l1s ++ List.replicate (PTRS_PER_BLOCK - l1s.length) 0 ∧
      l1s.length = PTRS_PER_BLOCK ∧
      ∀ l ∈ l1s, ∃ b, readPtrs c1run.fs l = b :: List.replicate (PTRS_PER_BLOCK - 1) 0) := by
  obtain ⟨⟨hlen, hbit0, hnd, hic, hphase⟩, htot⟩ := c1run_inv
  refine ⟨htot, ?_⟩
  rcases hphase with ⟨h1, _, _, _, _⟩ | ⟨hgt, ib, hsing, hrest⟩
  · exfalso
    rw [MAX_DIRECT_BLOCKS_eq, htot] at h1
    omega
  · rcases hrest with ⟨hle, _, _, _⟩ |
      ⟨hgt2, hl1, hl2, d, hdf, hd0, hbitd, hdne, l1s, hlen_l1s, hrpd,
        hnodup, hibn, hdn, hprops⟩
    · exfalso
      rw [MAX_DIRECT_BLOCKS_eq, PTRS_PER_BLOCK_eq, htot] at hle
      omega
    · constructor
      · rw [hl1, htot, MAX_DIRECT_BLOCKS_eq, PTRS_PER_BLOCK_eq]
        omega
      · refine ⟨d, l1s, hdf, hrpd, ?_, ?_⟩
        · rw [hlen_l1s, htot, MAX_DIRECT_BLOCKS_eq, PTRS_PER_BLOCK_eq]
          omega
        · intro l hl
          obtain ⟨_, _, b, hb, _⟩ := hprops l hl
          exact ⟨b, hb⟩
/-- Claim C4 (refuted, code bug): the write-side growth loop of `exfs2_add`
has no triple-indirect branch at all.  Whatever chunk sequence is copied —
in particular one long enough that the logical position enters the
triple-indirect range — the loop leaves `triple_indirect_block` at its
initial −1, so no file ever ends with `triple_indirect_block ≠ −1`; once
the double-indirect level-1 counter exceeds PTRS_PER_BLOCK the code keeps
indexing the double-indirect block out of bounds instead of descending from
a triple-indirect block. -/
theorem add_never_allocates_triple_indirect (fs : FS) (chunks : List (List ℕ)) :
    (exfs2AddContentLoop chunks (initLoopState fs)).file.triple_indirect_block = -1 := by
  rw [loop_triple]
  rfl

/-- A source of 2043 full blocks of zero bytes: its last logical block, at
index L = 2042, is the second block of the double-indirect range. -/
def c2src : List ℕ := List.replicate (2043 * BLOCK_SIZE) 0

/-- The copy loop of `exfs2_add` run on the 2043-block source over a fresh
filesystem. -/
def c2run : AddLoopState := exfs2AddContentLoop (chunksOf c2src) (initLoopState freshFS)

theorem c2run_inv : LoopInv c2run ∧ c2run.total_blocks = 2043 := by
  constructor
  · exact loopInv_foldl (chunksOf c2src) (initLoopState freshFS)
      (loopInv_init freshFS freshFS_len)
  · show (exfs2AddContentLoop (chunksOf c2src) (initLoopState freshFS)).total_blocks = 2043
    rw [c2src, chunksOf_replicate, loop_total, List.length_replicate]
    rfl

/-- Claim C2 (refuted, code bug): the claimed block map is wrong in the
double-indirect range.  After writing 2043 blocks (logical indexes
0..2042), the claimed contract places logical block L = 2042
(L − D − P = 1) at slot ⌊1/1024⌋ = 0 of the double-indirect block and slot
1 mod 1024 = 1 of the level-1 block referenced there.  In fact the growth
code opens a fresh level-1 block for every double-range chunk: the
double-indirect block holds two level-1 blocks `a` and `b`, slot 1 of `a`
is zero, and the data block of L = 2042 sits at slot 0 of `b`. -/
theorem double_range_block_map_diverges :
    c2run.total_blocks = 2043 ∧
    (∃ d a b : ℕ,
      c2run.file.double_indirect_block = (d : ℤ) ∧
      readPtrs c2run.fs d = a :: b :: List.replicate (PTRS_PER_BLOCK - 2) 0 ∧
      (readPtrs c2run.fs a).getD 1 0 = 0 ∧
      (readPtrs c2run.fs b).getD 0 0 ≠ 0) := by
  obtain ⟨⟨hlen, hbit0, hnd, hic, hphase⟩, htot⟩ := c2run_inv
  refine ⟨htot, ?_⟩
  rcases hphase with ⟨h1, _, _, _, _⟩ | ⟨hgt, ib, hsing, hrest⟩
  · exfalso
    rw [MAX_DIRECT_BLOCKS_eq, htot] at h1
    omega
  · rcases hrest with ⟨hle, _, _, _⟩ |
      ⟨hgt2, hl1, hl2, d, hdf, hd0, hbitd, hdne, l1s, hlen_l1s, hrpd,
        hnodup, hibn, hdn, hprops⟩
    · exfalso
      rw [MAX_DIRECT_BLOCKS_eq, PTRS_PER_BLOCK_eq, htot] at hle
      omega
    · have hll : l1s.length = 2 := by
        rw [hlen_l1s, htot, MAX_DIRECT_BLOCKS_eq, PTRS_PER_BLOCK_eq]
        omega
      match l1s, hll with
      | [a, b], _ =>
        obtain ⟨_, _, ba, hrpa, _⟩ := hprops a (by simp)
        obtain ⟨_, _, bb, hrpb, hbb⟩ := hprops b (by simp)
        refine ⟨d, a, b, hdf, ?_, ?_, ?_⟩
        · rw [hrpd]
          simp
        · rw [hrpa, List.getD_cons_succ]
          exact replicate_getD_zero _ _
        · rw [hrpb, List.getD_cons_zero]
          exact hbb
/-! ## Claim C9: block 0 and the root directory -/

/-- Adding the one-byte file `/f` to a fresh filesystem: the first operation
that makes the root directory need its first content block. -/
def c9res : FS × AddResult := exfs2_add freshFS [ '/', 'f' ] (some [65])

/-- Concrete refutation of the first half of claim C9: on the first add, the
content-copy loop runs before the parent directory is extended, so data
block 0 goes to the new file's first direct block, and the root directory's
first content block — needed right afterwards by `add_entry_to_dir` — is
allocated block 1, not block 0. -/
theorem root_first_content_block_is_one : c9res.2 = .ok ∧
    (c9res.1.inodes.getD 0 zeroInode).num_direct = 1 ∧
    (c9res.1.inodes.getD 0 zeroInode).direct_blocks.getD 0 0 = 1 ∧
    (c9res.1.inodes.getD 1 zeroInode).direct_blocks.getD 0 0 = 0 := by decide
/-- A prefix entry of a pointer block whose live part is all non-zero is
non-zero. -/
theorem getD_append_ne (l1 l2 : List ℕ) (j : ℕ) (h : j < l1.length)
    (hnz : ∀ x ∈ l1, x ≠ 0) : (l1 ++ l2).getD j 0 ≠ 0 := by
  rw [List.getD_eq_getElem?_getD, List.getElem?_append_left h, List.getElem?_eq_getElem h]
  exact hnz _ (List.getElem_mem h)

/-- The copy loop of `exfs2_add` run over a given chunk sequence, starting
from a fresh file inode. -/
def addLoopRun (fs0 : FS) (chunks : List (List ℕ)) : AddLoopState :=
  exfs2AddContentLoop chunks (initLoopState fs0)

/-- Claim C9, amended second half: block id 0 indeed never appears as a live
entry inside an indirect block of a file written by the copy loop — not
because the root owns block 0 (it does not, see the concrete run), but
because every id stored in an indirect slot is an allocated block id and
bit 0 of the data bitmap is taken from the first data-block allocation on:
the single- and double-indirect block ids themselves are non-zero, every
live slot of the single-indirect block is non-zero, and every live slot of
the double-indirect block is non-zero. -/
theorem block_zero_never_live_in_indirect_blocks (fs0 : FS)
    (hlen : fs0.disk.length = fs0.dbm.length) (chunks : List (List ℕ)) :
    (addLoopRun fs0 chunks).file.indirect_block ≠ 0 ∧
    (addLoopRun fs0 chunks).file.double_indirect_block ≠ 0 ∧
    (∀ j, j < (addLoopRun fs0 chunks).indirect_count →
      (readPtrs (addLoopRun fs0 chunks).fs
        (addLoopRun fs0 chunks).file.indirect_block.toNat).getD j 0 ≠ 0) ∧
    (∀ j, j < min (addLoopRun fs0 chunks).level1 PTRS_PER_BLOCK →
      (readPtrs (addLoopRun fs0 chunks).fs
        (addLoopRun fs0 chunks).file.double_indirect_block.toNat).getD j 0 ≠ 0) := by
  simp only [addLoopRun]
  obtain ⟨hl, hbit0, hnd, hic, hphase⟩ :=
    loopInv_foldl chunks (initLoopState fs0) (loopInv_init fs0 hlen)
  rcases hphase with ⟨h1, h2, h3, h4, h5⟩ | ⟨hgt, ib, ⟨hib, hib0, hbitib, ids, hlen_ids, hrp, hnz⟩, hrest⟩
  · refine ⟨by rw [h2]; decide, by rw [h3]; decide, ?_, ?_⟩
    · intro j hj
      rw [hic] at hj
      exfalso
      rw [MAX_DIRECT_BLOCKS_eq] at h1 hj
      omega
    · intro j hj
      rw [h4] at hj
      exfalso
      omega
  · have hibne : ((ib : ℤ)) ≠ 0 := by exact_mod_cast hib0
    refine ⟨by rw [hib]; exact hibne, ?_, ?_, ?_⟩
    · rcases hrest with ⟨_, hdd, _, _⟩ |
        ⟨_, _, _, d, hdf, hd0, _, _, _⟩
      · rw [hdd]
        decide
      · rw [hdf]
        exact_mod_cast hd0
    · intro j hj
      rw [hib]
      have htn : ((ib : ℤ)).toNat = ib := by simp
      rw [htn, hrp]
      refine getD_append_ne ids _ j ?_ hnz
      rw [hlen_ids, ← hic]
      exact hj
    · intro j hj
      rcases hrest with ⟨_, _, hl10, _⟩ |
        ⟨_, hl1, _, d, hdf, hd0, _, _, l1s, hlen_l1s, hrpd, _, _, _, hprops⟩
      · exfalso
        rw [hl10] at hj
        omega
      · rw [hdf]
        have htn : ((d : ℤ)).toNat = d := by simp
        rw [htn, hrpd]
        refine getD_append_ne l1s _ j ?_ (fun l hl => (hprops l hl).1)
        rw [hlen_l1s, ← hl1]
        exact hj
theorem block_zero_never_live_in_indirect_blocks_witness :
    (addLoopRun freshFS [[65]]).file.indirect_block ≠ 0 ∧
    (addLoopRun freshFS [[65]]).file.double_indirect_block ≠ 0 :=
  ⟨(block_zero_never_live_in_indirect_blocks freshFS freshFS_len [[65]]).1,
   (block_zero_never_live_in_indirect_blocks freshFS freshFS_len [[65]]).2.1⟩
/-! ## Field-preservation lemmas of the primitives -/

theorem save_directory_entries_inodes (fs : FS) (i : ℕ) (es : List DirEntry) :
    (save_directory_entries fs i es).inodes = fs.inodes := rfl

theorem save_directory_entries_ibm (fs : FS) (i : ℕ) (es : List DirEntry) :
    (save_directory_entries fs i es).ibm = fs.ibm := rfl

theorem allocate_inode_ibm_bit0 (fs : FS) (h : fs.ibm.getD 0 false = true) :
    (allocate_inode fs).2.ibm.getD 0 false = true := by
  rw [allocate_inode]
  cases hf : find_free_bit fs.ibm fs.ibm.length with
  | none =>
      show (fs.ibm ++ [true]).getD 0 false = true
      cases hl : fs.ibm with
      | nil => rw [hl] at h; exact absurd h (by decide)
      | cons a t => rw [hl] at h; exact h
  | some i =>
      show (fs.ibm.set i true).getD 0 false = true
      cases hl : fs.ibm with
      | nil => rw [hl] at h; exact absurd h (by decide)
      | cons a t =>
          rw [hl] at h
          cases i with
          | zero => rfl
          | succ j => exact h

/-- The copy loop never touches the inode table. -/
theorem addLoopStep_fs_inodes (st : AddLoopState) (c : List ℕ) :
    (addLoopStep st c).fs.inodes = st.fs.inodes := by
  simp only [addLoopStep]
  repeat' split
  all_goals simp only [write_block_inodes, allocate_block_inodes]

/-- The copy loop never touches the inode bitmap. -/
theorem addLoopStep_fs_ibm (st : AddLoopState) (c : List ℕ) :
    (addLoopStep st c).fs.ibm = st.fs.ibm := by
  simp only [addLoopStep]
  repeat' split
  all_goals simp only [write_block_ibm, allocate_block_ibm]

/-- The copy loop never changes the type of the in-construction inode. -/
theorem addLoopStep_file_type (st : AddLoopState) (c : List ℕ) :
    (addLoopStep st c).file.type = st.file.type := by
  simp only [addLoopStep]
  split
  · rfl
  · split
    · rfl
    · rfl

theorem loop_fs_inodes (chunks : List (List ℕ)) :
    ∀ st : AddLoopState, (exfs2AddContentLoop chunks st).fs.inodes = st.fs.inodes := by
  induction chunks with
  | nil => intro st; rfl
  | cons c t ih =>
      intro st
      rw [exfs2AddContentLoop, List.foldl_cons]
      have := ih (addLoopStep st c)
      rw [exfs2AddContentLoop] at this
      rw [this, addLoopStep_fs_inodes]

theorem loop_fs_ibm (chunks : List (List ℕ)) :
    ∀ st : AddLoopState, (exfs2AddContentLoop chunks st).fs.ibm = st.fs.ibm := by
  induction chunks with
  | nil => intro st; rfl
  | cons c t ih =>
      intro st
      rw [exfs2AddContentLoop, List.foldl_cons]
      have := ih (addLoopStep st c)
      rw [exfs2AddContentLoop] at this
      rw [this, addLoopStep_fs_ibm]

theorem loop_file_type (chunks : List (List ℕ)) :
    ∀ st : AddLoopState, (exfs2AddContentLoop chunks st).file.type = st.file.type := by
  induction chunks with
  | nil => intro st; rfl
  | cons c t ih =>
      intro st
      rw [exfs2AddContentLoop, List.foldl_cons]
      have := ih (addLoopStep st c)
      rw [exfs2AddContentLoop] at this
      rw [this, addLoopStep_file_type]
/-! ## Claim C5: the directory size invariant -/

/-- The claimed relation, for one inode record. -/
def DirSizeOk (ino : Inode) : Prop :=
  ino.type = 2 → ino.size = ino.num_direct * BLOCK_SIZE

/-- The claimed relation, for every inode record of the store. -/
def DirInv (fs : FS) : Prop := ∀ ino ∈ fs.inodes, DirSizeOk ino

theorem DirInv_of_inodes_eq (fs1 fs2 : FS) (h : fs2.inodes = fs1.inodes)
    (hinv : DirInv fs1) : DirInv fs2 := by
  intro ino hm
  exact hinv ino (h ▸ hm)

theorem DirSizeOk_zeroInode : DirSizeOk zeroInode := by
  intro h
  exact absurd h (by decide)

theorem DirSizeOk_freshDir : DirSizeOk freshDirInode := fun _ => rfl

theorem DirInv_write (fs : FS) (n : ℕ) (ino : Inode)
    (hinv : DirInv fs) (hok : DirSizeOk ino) : DirInv (write_inode fs n ino) := by
  intro x hm
  rcases List.mem_or_eq_of_mem_set hm with h | h
  · exact hinv x h
  · rw [h]; exact hok

theorem DirInv_allocate_inode (fs : FS) (hinv : DirInv fs) :
    DirInv (allocate_inode fs).2 := by
  rw [allocate_inode]
  cases find_free_bit fs.ibm fs.ibm.length with
  | some i => exact hinv
  | none =>
      intro x hm
      rcases List.mem_append.mp hm with h | h
      · exact hinv x h
      · rw [List.mem_singleton.mp h]
        exact DirSizeOk_zeroInode

theorem read_inode_mem (fs : FS) (n : ℕ) (ino : Inode)
    (h : read_inode fs n = some ino) : ino ∈ fs.inodes :=
  List.getElem?_mem h

theorem add_entry_blocks_inodes (fs : FS) (nm : Name) (c : ℤ) :
    ∀ bids fs', add_entry_blocks fs nm c bids = some fs' → fs'.inodes = fs.inodes := by
  intro bids
  induction bids with
  | nil => intro fs' h; exact absurd h (by simp [add_entry_blocks])
  | cons bid rest ih =>
      intro fs' h
      rw [add_entry_blocks] at h
      cases hl : load_directory_entries fs bid with
      | none =>
          simp only [hl] at h
          exact ih fs' h
      | some es =>
          simp only [hl] at h
          cases hs : freeSlotIdx es with
          | some j =>
              simp only [hs] at h
              simp at h
              rw [← h]
              rfl
          | none =>
              simp only [hs] at h
              exact ih fs' h

theorem DirInv_add_entry (fs : FS) (dir : Inode) (n : ℕ) (nm : Name) (c : ℤ)
    (hinv : DirInv fs) (hdir : DirSizeOk dir) :
    DirInv (add_entry_to_dir fs dir n nm c).fs := by
  rw [add_entry_to_dir]
  split
  · exact hinv
  · split
    · exact hinv
    · cases hab : add_entry_blocks fs nm c (dir.direct_blocks.take dir.num_direct) with
      | some fs' =>
          simp only [hab]
          exact DirInv_of_inodes_eq fs _ (add_entry_blocks_inodes fs nm c _ fs' hab) hinv
      | none =>
          simp only [hab]
          split
          · exact hinv
          · refine DirInv_write _ _ _ ?_ ?_
            · exact DirInv_of_inodes_eq fs _
                (by rw [save_directory_entries_inodes, allocate_block_inodes]) hinv
            · intro h2
              show dir.size + BLOCK_SIZE = (dir.num_direct + 1) * BLOCK_SIZE
              rw [hdir h2, Nat.succ_mul]

theorem addWalk_dirInv : ∀ (parts : List Name) (fs : FS) (n : ℕ) (cur : Inode),
    DirInv fs → DirSizeOk cur →
    DirInv (addWalk fs n cur parts).1 ∧
    (∀ pn pi, (addWalk fs n cur parts).2 = .ok (pn, pi) → DirSizeOk pi) := by
  intro parts
  induction parts with
  | nil =>
      intro fs n cur hinv hcur
      refine ⟨hinv, ?_⟩
      intro pn pi h
      simp [addWalk] at h
      rw [← h.2]
      exact hcur
  | cons p rest ih =>
      intro fs n cur hinv hcur
      rw [addWalk]
      split
      · dsimp only
        have hfs2 : DirInv (write_inode (allocate_inode fs).2 (allocate_inode fs).1
            freshDirInode) :=
          DirInv_write _ _ _ (DirInv_allocate_inode fs hinv) DirSizeOk_freshDir
        have hrfs : DirInv (add_entry_to_dir
            (write_inode (allocate_inode fs).2 (allocate_inode fs).1 freshDirInode)
            cur n p ((allocate_inode fs).1 : ℤ)).fs :=
          DirInv_add_entry _ _ _ _ _ hfs2 hcur
        by_cases hst : (add_entry_to_dir
            (write_inode (allocate_inode fs).2 (allocate_inode fs).1 freshDirInode)
            cur n p ((allocate_inode fs).1 : ℤ)).status = 0
        · rw [if_pos hst]
          exact ih _ _ _ hrfs DirSizeOk_freshDir
        · rw [if_neg hst]
          exact ⟨hrfs, by intro pn pi h; exact absurd h (by simp)⟩
      · cases hri : read_inode fs (find_entry_in_dir fs cur p).toNat with
        | none =>
            simp only [hri]
            exact ⟨hinv, by intro pn pi h; exact absurd h (by simp)⟩
        | some nx =>
            have hnx : DirSizeOk nx := hinv nx (read_inode_mem _ _ _ hri)
            simp only [hri]
            by_cases hty : nx.type = 2
            · rw [if_pos hty]
              exact ih _ _ _ hinv hnx
            · rw [if_neg hty]
              exact ⟨hinv, by intro pn pi h; exact absurd h (by simp)⟩
theorem DirInv_add (fs : FS) (path : List Char) (lf : Option (List ℕ))
    (hinv : DirInv fs) : DirInv (exfs2_add fs path lf).1 := by
  rw [exfs2_add]
  split
  · exact hinv
  · cases hroot : read_inode fs 0 with
    | none => exact hinv
    | some root =>
        simp only [hroot]
        have hrootOk : DirSizeOk root := hinv root (read_inode_mem _ _ _ hroot)
        obtain ⟨hw1, hw2⟩ :=
          addWalk_dirInv (split_path path).dropLast fs 0 root hinv hrootOk
        cases hwalk : addWalk fs 0 root (split_path path).dropLast with
        | mk fs1 r =>
            rw [hwalk] at hw1 hw2
            cases r with
            | error e => simp only [hwalk]; exact hw1
            | ok pr =>
                obtain ⟨pnum, pino⟩ := pr
                have hpino : DirSizeOk pino := hw2 pnum pino rfl
                simp only [hwalk]
                split
                · exact hw1
                · cases lf with
                  | none => exact DirInv_allocate_inode fs1 hw1
                  | some bytes =>
                      dsimp only
                      have hstf : DirInv (exfs2AddContentLoop (chunksOf bytes)
                          (initLoopState (allocate_inode fs1).2)).fs :=
                        DirInv_of_inodes_eq _ _
                          (by rw [loop_fs_inodes]; rfl)
                          (DirInv_allocate_inode fs1 hw1)
                      have hfileTy : (exfs2AddContentLoop (chunksOf bytes)
                          (initLoopState (allocate_inode fs1).2)).file.type = 1 := by
                        rw [loop_file_type]
                        rfl
                      have hfs3 : DirInv (write_inode (exfs2AddContentLoop (chunksOf bytes)
                          (initLoopState (allocate_inode fs1).2)).fs (allocate_inode fs1).1
                          (exfs2AddContentLoop (chunksOf bytes)
                            (initLoopState (allocate_inode fs1).2)).file) :=
                        DirInv_write _ _ _ hstf
                          (fun h2 => absurd (hfileTy ▸ h2) (by decide))
                      have hr : DirInv (add_entry_to_dir
                          (write_inode (exfs2AddContentLoop (chunksOf bytes)
                            (initLoopState (allocate_inode fs1).2)).fs (allocate_inode fs1).1
                            (exfs2AddContentLoop (chunksOf bytes)
                              (initLoopState (allocate_inode fs1).2)).file)
                          pino pnum ((split_path path).getLast (by assumption))
                          ((allocate_inode fs1).1 : ℤ)).fs :=
                        DirInv_add_entry _ _ _ _ _ hfs3 hpino
                      split
                      · exact hr
                      · exact hr
/-- `exfs2_remove_recursive` frees bitmap bits only; the inode records
themselves are never rewritten. -/
theorem remove_rec_inodes : ∀ (fuel : ℕ) (fs : FS) (n : ℕ),
    (exfs2_remove_recursive fuel fs n).inodes = fs.inodes := by
  intro fuel
  induction fuel with
  | zero => intro fs n; rfl
  | succ fuel ih =>
      intro fs n
      rw [exfs2_remove_recursive]
      cases hri : read_inode fs n with
      | none => rfl
      | some ino =>
          simp only [hri]
          split
          · rw [free_inode_inodes]
            split
            · rw [foldl_free_block_inodes]
            · rw [free_block_inodes, foldl_free_block_inodes, foldl_free_block_inodes]
          · split
            · rw [free_inode_inodes]
              have hblocks : ∀ (bids : List ℕ) (acc : FS),
                  (bids.foldl (fun acc bid =>
                    match load_directory_entries acc bid with
                    | none => acc
                    | some es =>
                        free_block
                          (es.foldl (fun a e =>
                            if e.inode_num ≠ -1 then
                              exfs2_remove_recursive fuel a e.inode_num.toNat
                            else a) acc) bid) acc).inodes = acc.inodes := by
                intro bids
                induction bids with
                | nil => intro acc; rfl
                | cons bid rest ihb =>
                    intro acc
                    rw [List.foldl_cons, ihb]
                    cases hld : load_directory_entries acc bid with
                    | none => rfl
                    | some es =>
                        simp only [hld]
                        rw [free_block_inodes]
                        clear hld
                        induction es generalizing acc with
                        | nil => rfl
                        | cons e et ihe =>
                            rw [List.foldl_cons]
                            rw [ihe]
                            split
                            · rw [ih]
                            · rfl
              rw [hblocks]
            · rfl

theorem clear_entry_inodes (t : ℤ) :
    ∀ (bids : List ℕ) (fs : FS), (clear_entry_in_blocks fs bids t).inodes = fs.inodes := by
  intro bids
  induction bids with
  | nil => intro fs; rfl
  | cons bid rest ih =>
      intro fs
      rw [clear_entry_in_blocks, List.foldl_cons]
      refine (ih _).trans ?_
      dsimp only
      cases hld : load_directory_entries fs bid with
      | none => simp only [hld]
      | some es =>
          simp only [hld]
          cases hfi : es.findIdx? (fun e => e.inode_num = t) with
          | none => simp only [hfi]
          | some j => simp only [hfi]; rfl

/-- `exfs2_remove` frees bitmap bits and rewrites directory data blocks; the
inode records themselves are never rewritten. -/
theorem remove_inodes (fuel : ℕ) (fs : FS) (path : List Char) :
    (exfs2_remove fuel fs path).inodes = fs.inodes := by
  rw [exfs2_remove]
  split
  · rfl
  · cases hroot : read_inode fs 0 with
    | none => rfl
    | some root =>
        simp only [hroot]
        cases hw : removeWalk fs root (split_path path).dropLast with
        | none => rfl
        | some parent =>
            simp only [hw]
            split
            · rfl
            · rw [clear_entry_inodes, remove_rec_inodes]
/-- Claim C5 (confirmed): in every filesystem state reachable from a fresh
filesystem by sequences of the public operations, every directory inode `d`
satisfies `d.size = d.num_direct * 4096`.  `add_entry_to_dir` grows a
directory only on its new-block path, where it adds `BLOCK_SIZE` to `size`
and `1` to `num_direct` together; fresh directories start at `0 = 0`; the
copy loop rewrites only the (type-1) file inode; and `exfs2_remove` never
rewrites an inode record. -/
theorem directory_size_invariant (fs : FS) (hr : Reach fs) :
    ∀ ino ∈ fs.inodes, ino.type = 2 → ino.size = ino.num_direct * BLOCK_SIZE := by
  induction hr with
  | fresh =>
      intro ino hm h2
      rcases List.mem_cons.mp hm with h | h
      · rw [h]; rfl
      · rw [List.eq_of_mem_replicate h] at h2
        exact absurd h2 (by decide)
  | add fs path lf hfs ihf => exact DirInv_add fs path lf ihf
  | remove fs fuel path hfs ihf =>
      exact DirInv_of_inodes_eq fs _ (remove_inodes fuel fs path) ihf

theorem directory_size_invariant_witness :
    freshDirInode.size = freshDirInode.num_direct * BLOCK_SIZE :=
  directory_size_invariant freshFS Reach.fresh freshDirInode
    (List.mem_cons_self _ _) rfl
/-! ## Claim C10: the root inode is never freed -/

/-- A directory entry is either free or names an inode with number at
least 1 (never inode 0, the root). -/
def EntryOk (e : DirEntry) : Prop := e.inode_num = -1 ∨ 1 ≤ e.inode_num

/-- A disk block never stores a live directory entry naming inode 0. -/
def BlockOk (bd : BlockData) : Prop :=
  ∀ es, bd = .entries es → ∀ e ∈ es, EntryOk e

/-- Every block of the store satisfies `BlockOk`. -/
def DiskOk (fs : FS) : Prop := ∀ bd ∈ fs.disk, BlockOk bd

/-- Root-protection invariant: the root inode's bitmap bit is set and no
directory entry on disk names inode 0. -/
def RootInv (fs : FS) : Prop := fs.ibm.getD 0 false = true ∧ DiskOk fs

theorem BlockOk_bytes (l : List ℕ) : BlockOk (.bytes l) := fun _ h => nomatch h

theorem BlockOk_ptrs (l : List ℕ) : BlockOk (.ptrs l) := fun _ h => nomatch h

theorem RootInv_fresh : RootInv freshFS := by
  refine ⟨rfl, ?_⟩
  intro bd hm
  rw [List.eq_of_mem_replicate hm]
  exact BlockOk_bytes _

theorem DiskOk_of_disk_eq (fs1 fs2 : FS) (h : fs2.disk = fs1.disk)
    (hd : DiskOk fs1) : DiskOk fs2 := by
  intro bd hm
  exact hd bd (h ▸ hm)

theorem DiskOk_write (fs : FS) (i : ℕ) (b : BlockData)
    (hd : DiskOk fs) (hb : BlockOk b) : DiskOk (write_block fs i b) := by
  intro bd hm
  rcases List.mem_or_eq_of_mem_set hm with h | h
  · exact hd bd h
  · rw [h]; exact hb

theorem DiskOk_alloc (fs : FS) (hd : DiskOk fs) : DiskOk (allocate_block fs).2 := by
  rw [allocate_block]
  cases find_free_bit fs.dbm fs.dbm.length with
  | some i => exact hd
  | none =>
      intro bd hm
      rcases List.mem_append.mp hm with h | h
      · exact hd bd h
      · rw [List.mem_singleton.mp h]
        exact BlockOk_bytes _

/-- When the root bit is set, `allocate_inode` never hands out inode 0. -/
theorem allocate_inode_pos (fs : FS) (h : fs.ibm.getD 0 false = true) :
    1 ≤ (allocate_inode fs).1 := by
  cases hl : fs.ibm with
  | nil => rw [hl] at h; exact absurd h (by decide)
  | cons a t =>
      rw [hl] at h
      have ha : a = true := h
      rw [allocate_inode, hl, ha]
      cases hlen : (true :: t).length with
      | zero => exact absurd hlen (by simp)
      | succ m =>
          rw [find_free_bit]
          cases find_free_bit t m with
          | none => simp
          | some i => simp

/-- The entries of a loaded directory block of a `DiskOk` store. -/
theorem load_entries_ok (fs : FS) (bid : ℕ) (es : List DirEntry)
    (hd : DiskOk fs) (h : load_directory_entries fs bid = some es) :
    ∀ e ∈ es, EntryOk e := by
  rw [load_directory_entries] at h
  cases hb : fs.disk[bid]? with
  | none => rw [hb] at h; exact absurd h (by simp)
  | some bd =>
      rw [hb] at h
      cases bd with
      | bytes l => exact absurd h (by simp)
      | ptrs l => exact absurd h (by simp)
      | entries es2 =>
          simp at h
          exact h ▸ hd _ (List.getElem?_mem hb) es2 rfl
/-- The copy loop writes only data (`bytes`) and pointer blocks, never
directory entries. -/
theorem addLoopStep_diskOk (st : AddLoopState) (c : List ℕ)
    (hd : DiskOk st.fs) : DiskOk (addLoopStep st c).fs := by
  have hw : ∀ (fs : FS) (i : ℕ) (l : List ℕ), DiskOk fs →
      DiskOk (write_block fs i (.ptrs l)) :=
    fun fs i l h => DiskOk_write fs i _ h (BlockOk_ptrs l)
  have h2 : DiskOk (write_block (allocate_block st.fs).2 (allocate_block st.fs).1
      (padBlock c)) :=
    DiskOk_write _ _ _ (DiskOk_alloc _ hd) (by rw [padBlock]; exact BlockOk_bytes _)
  simp only [addLoopStep]
  split
  · exact h2
  · split
    · dsimp only
      split
      · exact hw _ _ _ (DiskOk_alloc _ h2)
      · exact hw _ _ _ h2
    · dsimp only
      split <;> split
      all_goals
        repeat
          first
          | exact h2
          | refine hw _ _ _ ?_
          | refine DiskOk_alloc _ ?_

theorem loop_diskOk (chunks : List (List ℕ)) :
    ∀ st : AddLoopState, DiskOk st.fs → DiskOk (exfs2AddContentLoop chunks st).fs := by
  induction chunks with
  | nil => intro st h; exact h
  | cons c t ih =>
      intro st h
      rw [exfs2AddContentLoop, List.foldl_cons]
      exact ih (addLoopStep st c) (addLoopStep_diskOk st c h)

theorem EntryOk_free : EntryOk freeDirEntry := Or.inl rfl

theorem add_entry_blocks_rootInv (fs : FS) (nm : Name) (c : ℤ)
    (hc : 1 ≤ c) (hinv : RootInv fs) :
    ∀ bids fs', add_entry_blocks fs nm c bids = some fs' → RootInv fs' := by
  intro bids
  induction bids with
  | nil => intro fs' h; exact absurd h (by simp [add_entry_blocks])
  | cons bid rest ih =>
      intro fs' h
      rw [add_entry_blocks] at h
      cases hl : load_directory_entries fs bid with
      | none =>
          simp only [hl] at h
          exact ih fs' h
      | some es =>
          simp only [hl] at h
          cases hs : freeSlotIdx es with
          | none =>
              simp only [hs] at h
              exact ih fs' h
          | some j =>
              simp only [hs] at h
              simp at h
              rw [← h]
              refine ⟨hinv.1, DiskOk_write _ _ _ hinv.2 ?_⟩
              intro es2 heq e hme
              cases heq
              rcases List.mem_or_eq_of_mem_set hme with hme2 | hme2
              · exact load_entries_ok fs bid es hinv.2 hl e hme2
              · rw [hme2]
                exact Or.inr hc

theorem RootInv_add_entry (fs : FS) (dir : Inode) (n : ℕ) (nm : Name) (c : ℤ)
    (hc : 1 ≤ c) (hinv : RootInv fs) :
    RootInv (add_entry_to_dir fs dir n nm c).fs := by
  rw [add_entry_to_dir]
  split
  · exact hinv
  · split
    · exact hinv
    · cases hab : add_entry_blocks fs nm c (dir.direct_blocks.take dir.num_direct) with
      | some fs' =>
          simp only [hab]
          exact add_entry_blocks_rootInv fs nm c hc hinv _ fs' hab
      | none =>
          simp only [hab]
          split
          · exact hinv
          · refine ⟨?_, ?_⟩
            · show ((allocate_block fs).2.ibm).getD 0 false = true
              rw [allocate_block_ibm]
              exact hinv.1
            · show DiskOk (write_block (allocate_block fs).2 (allocate_block fs).1 _)
              refine DiskOk_write _ _ _ (DiskOk_alloc fs hinv.2) ?_
              intro es2 heq e hme
              cases heq
              rcases List.mem_or_eq_of_mem_set hme with hme2 | hme2
              · rw [List.eq_of_mem_replicate hme2]
                exact EntryOk_free
              · rw [hme2]
                exact Or.inr hc

theorem addWalk_rootInv : ∀ (parts : List Name) (fs : FS) (n : ℕ) (cur : Inode),
    RootInv fs → RootInv (addWalk fs n cur parts).1 := by
  intro parts
  induction parts with
  | nil => intro fs n cur hinv; exact hinv
  | cons p rest ih =>
      intro fs n cur hinv
      rw [addWalk]
      split
      · dsimp only
        have hfs2 : RootInv (write_inode (allocate_inode fs).2 (allocate_inode fs).1
            freshDirInode) := by
          refine ⟨?_, ?_⟩
          · show ((allocate_inode fs).2.ibm).getD 0 false = true
            exact allocate_inode_ibm_bit0 fs hinv.1
          · exact DiskOk_of_disk_eq fs _ (allocate_inode_disk fs) hinv.2
        have hc : (1 : ℤ) ≤ ((allocate_inode fs).1 : ℤ) := by
          exact_mod_cast allocate_inode_pos fs hinv.1
        have hrfs : RootInv (add_entry_to_dir
            (write_inode (allocate_inode fs).2 (allocate_inode fs).1 freshDirInode)
            cur n p ((allocate_inode fs).1 : ℤ)).fs :=
          RootInv_add_entry _ _ _ _ _ hc hfs2
        split
        · exact ih _ _ _ hrfs
        · exact hrfs
      · cases hri : read_inode fs (find_entry_in_dir fs cur p).toNat with
        | none => exact hinv
        | some nx =>
            simp only [hri]
            split
            · exact ih _ _ _ hinv
            · exact hinv

theorem RootInv_add (fs : FS) (path : List Char) (lf : Option (List ℕ))
    (hinv : RootInv fs) : RootInv (exfs2_add fs path lf).1 := by
  rw [exfs2_add]
  split
  · exact hinv
  · cases hroot : read_inode fs 0 with
    | none => exact hinv
    | some root =>
        simp only [hroot]
        have hw1 : RootInv (addWalk fs 0 root (split_path path).dropLast).1 :=
          addWalk_rootInv (split_path path).dropLast fs 0 root hinv
        cases hwalk : addWalk fs 0 root (split_path path).dropLast with
        | mk fs1 r =>
            rw [hwalk] at hw1
            cases r with
            | error e => simp only [hwalk]; exact hw1
            | ok pr =>
                obtain ⟨pnum, pino⟩ := pr
                simp only [hwalk]
                split
                · exact hw1
                · have ha2 : RootInv (allocate_inode fs1).2 :=
                    ⟨allocate_inode_ibm_bit0 fs1 hw1.1,
                     DiskOk_of_disk_eq fs1 _ (allocate_inode_disk fs1) hw1.2⟩
                  have hc : (1 : ℤ) ≤ ((allocate_inode fs1).1 : ℤ) := by
                    exact_mod_cast allocate_inode_pos fs1 hw1.1
                  cases lf with
                  | none => exact ha2
                  | some bytes =>
                      dsimp only
                      have hstf : RootInv (exfs2AddContentLoop (chunksOf bytes)
                          (initLoopState (allocate_inode fs1).2)).fs := by
                        refine ⟨?_, loop_diskOk _ _ ha2.2⟩
                        rw [loop_fs_ibm]
                        exact ha2.1
                      have hfs3 : RootInv (write_inode (exfs2AddContentLoop (chunksOf bytes)
                          (initLoopState (allocate_inode fs1).2)).fs (allocate_inode fs1).1
                          (exfs2AddContentLoop (chunksOf bytes)
                            (initLoopState (allocate_inode fs1).2)).file) := hstf
                      have hr : RootInv (add_entry_to_dir
                          (write_inode (exfs2AddContentLoop (chunksOf bytes)
                            (initLoopState (allocate_inode fs1).2)).fs (allocate_inode fs1).1
                            (exfs2AddContentLoop (chunksOf bytes)
                              (initLoopState (allocate_inode fs1).2)).file)
                          pino pnum ((split_path path).getLast (by assumption))
                          ((allocate_inode fs1).1 : ℤ)).fs :=
                        RootInv_add_entry _ _ _ _ _ hc hfs3
                      split
                      · exact hr
                      · exact hr
/-- `exfs2_remove_recursive` never writes a data block: it only clears
bitmap bits. -/
theorem remove_rec_disk : ∀ (fuel : ℕ) (fs : FS) (n : ℕ),
    (exfs2_remove_recursive fuel fs n).disk = fs.disk := by
  intro fuel
  induction fuel with
  | zero => intro fs n; rfl
  | succ fuel ih =>
      intro fs n
      rw [exfs2_remove_recursive]
      cases hri : read_inode fs n with
      | none => rfl
      | some ino =>
          simp only [hri]
          split
          · rw [free_inode_disk]
            split
            · rw [foldl_free_block_disk]
            · rw [free_block_disk, foldl_free_block_disk, foldl_free_block_disk]
          · split
            · rw [free_inode_disk]
              have hblocks : ∀ (bids : List ℕ) (acc : FS),
                  (bids.foldl (fun acc bid =>
                    match load_directory_entries acc bid with
                    | none => acc
                    | some es =>
                        free_block
                          (es.foldl (fun a e =>
                            if e.inode_num ≠ -1 then
                              exfs2_remove_recursive fuel a e.inode_num.toNat
                            else a) acc) bid) acc).disk = acc.disk := by
                intro bids
                induction bids with
                | nil => intro acc; rfl
                | cons bid rest ihb =>
                    intro acc
                    rw [List.foldl_cons, ihb]
                    cases hld : load_directory_entries acc bid with
                    | none => rfl
                    | some es =>
                        simp only [hld]
                        rw [free_block_disk]
                        clear hld
                        induction es generalizing acc with
                        | nil => rfl
                        | cons e et ihe =>
                            rw [List.foldl_cons]
                            rw [ihe]
                            split
                            · rw [ih]
                            · rfl
              rw [hblocks]
            · rfl

/-- Freeing a non-root inode leaves the root's bitmap bit set. -/
theorem free_inode_bit0 (fs : FS) (n : ℕ) (hn : 1 ≤ n)
    (h : fs.ibm.getD 0 false = true) :
    (free_inode fs n).ibm.getD 0 false = true := by
  show (fs.ibm.set n false).getD 0 false = true
  rw [getD_set_ne fs.ibm false (by omega)]
  exact h

/-- On a `DiskOk` store, the removal recursion started at a non-root inode
never clears the root's bitmap bit. -/
theorem remove_rec_bit0 : ∀ (fuel : ℕ) (fs : FS) (n : ℕ),
    DiskOk fs → 1 ≤ n → fs.ibm.getD 0 false = true →
    (exfs2_remove_recursive fuel fs n).ibm.getD 0 false = true := by
  intro fuel
  induction fuel with
  | zero => intro fs n _ _ h; exact h
  | succ fuel ih =>
      intro fs n hd hn h
      rw [exfs2_remove_recursive]
      cases hri : read_inode fs n with
      | none => exact h
      | some ino =>
          simp only [hri]
          split
          · refine free_inode_bit0 _ n hn ?_
            split
            · rw [foldl_free_block_ibm]; exact h
            · rw [free_block_ibm, foldl_free_block_ibm, foldl_free_block_ibm]; exact h
          · split
            · refine free_inode_bit0 _ n hn ?_
              have hblocks : ∀ (bids : List ℕ) (acc : FS),
                  DiskOk acc → acc.ibm.getD 0 false = true →
                  (bids.foldl (fun acc bid =>
                    match load_directory_entries acc bid with
                    | none => acc
                    | some es =>
                        free_block
                          (es.foldl (fun a e =>
                            if e.inode_num ≠ -1 then
                              exfs2_remove_recursive fuel a e.inode_num.toNat
                            else a) acc) bid) acc).ibm.getD 0 false = true := by
                intro bids
                induction bids with
                | nil => intro acc _ hacc; exact hacc
                | cons bid rest ihb =>
                    intro acc hdacc hacc
                    rw [List.foldl_cons]
                    have hstep : ∀ (es : List DirEntry) (a0 : FS),
                        (∀ e ∈ es, EntryOk e) → DiskOk a0 →
                        a0.ibm.getD 0 false = true →
                        DiskOk (es.foldl (fun a e =>
                          if e.inode_num ≠ -1 then
                            exfs2_remove_recursive fuel a e.inode_num.toNat
                          else a) a0) ∧
                        (es.foldl (fun a e =>
                          if e.inode_num ≠ -1 then
                            exfs2_remove_recursive fuel a e.inode_num.toNat
                          else a) a0).ibm.getD 0 false = true := by
                      intro es
                      induction es with
                      | nil => intro a0 _ hd0 h0; exact ⟨hd0, h0⟩
                      | cons e et ihe =>
                          intro a0 hok hd0 h0
                          rw [List.foldl_cons]
                          by_cases he : e.inode_num ≠ -1
                          · rw [if_pos he]
                            have hge : 1 ≤ e.inode_num := by
                              rcases hok e (by simp) with h1 | h1
                              · exact absurd h1 he
                              · exact h1
                            have hge2 : 1 ≤ e.inode_num.toNat := by omega
                            refine ihe _ (fun x hx => hok x (by simp [hx])) ?_ ?_
                            · exact DiskOk_of_disk_eq _ _ (remove_rec_disk fuel a0 _) hd0
                            · exact ih _ _ hd0 hge2 h0
                          · rw [if_neg he]
                            exact ihe _ (fun x hx => hok x (by simp [hx])) hd0 h0
                    cases hld : load_directory_entries acc bid with
                    | none =>
                        simp only [hld]
                        exact ihb acc hdacc hacc
                    | some es =>
                        simp only [hld]
                        have hok := load_entries_ok acc bid es hdacc hld
                        obtain ⟨hd2, h2⟩ := hstep es acc hok hdacc hacc
                        refine ihb _ ?_ ?_
                        · exact DiskOk_of_disk_eq _ _ (free_block_disk _ _) hd2
                        · rw [free_block_ibm]; exact h2
              exact hblocks _ fs hd h
            · exact h
/-- On a `DiskOk` store, a successful directory lookup returns an inode
number at least 1. -/
theorem find_entry_blocks_pos (fs : FS) (nm : Name) (hd : DiskOk fs) :
    ∀ bids, find_entry_blocks fs nm bids ≠ -1 → 1 ≤ find_entry_blocks fs nm bids := by
  intro bids
  induction bids with
  | nil => intro h; exact absurd rfl h
  | cons bid rest ih =>
      intro h
      rw [find_entry_blocks] at h ⊢
      cases hld : load_directory_entries fs bid with
      | none =>
          simp only [hld] at h ⊢
          exact ih h
      | some es =>
          simp only [hld] at h ⊢
          cases hfe : findEntry es nm with
          | none =>
              simp only [hfe] at h ⊢
              exact ih h
          | some e =>
              simp only [hfe] at h ⊢
              have hme : e ∈ es := List.mem_of_find?_eq_some hfe
              rcases load_entries_ok fs bid es hd hld e hme with h1 | h1
              · exact absurd h1 h
              · exact h1

theorem find_entry_in_dir_pos (fs : FS) (dir : Inode) (nm : Name) (hd : DiskOk fs)
    (h : find_entry_in_dir fs dir nm ≠ -1) : 1 ≤ find_entry_in_dir fs dir nm := by
  rw [find_entry_in_dir] at h ⊢
  split
  · rw [if_pos (by assumption)] at h
    exact absurd rfl h
  · rw [if_neg (by assumption)] at h
    exact find_entry_blocks_pos fs nm hd _ h

theorem clear_entry_ibm (t : ℤ) :
    ∀ (bids : List ℕ) (fs : FS), (clear_entry_in_blocks fs bids t).ibm = fs.ibm := by
  intro bids
  induction bids with
  | nil => intro fs; rfl
  | cons bid rest ih =>
      intro fs
      rw [clear_entry_in_blocks, List.foldl_cons]
      refine (ih _).trans ?_
      dsimp only
      cases hld : load_directory_entries fs bid with
      | none => simp only [hld]
      | some es =>
          simp only [hld]
          cases hfi : es.findIdx? (fun e => e.inode_num = t) with
          | none => simp only [hfi]
          | some j => simp only [hfi]; rfl

theorem clear_entry_diskOk (t : ℤ) :
    ∀ (bids : List ℕ) (fs : FS), DiskOk fs → DiskOk (clear_entry_in_blocks fs bids t) := by
  intro bids
  induction bids with
  | nil => intro fs hd; exact hd
  | cons bid rest ih =>
      intro fs hd
      rw [clear_entry_in_blocks, List.foldl_cons]
      show DiskOk (clear_entry_in_blocks _ rest t)
      refine ih _ ?_
      dsimp only
      cases hld : load_directory_entries fs bid with
      | none => simp only [hld]; exact hd
      | some es =>
          simp only [hld]
          cases hfi : es.findIdx? (fun e => e.inode_num = t) with
          | none => simp only [hfi]; exact hd
          | some j =>
              simp only [hfi]
              refine DiskOk_write _ _ _ hd ?_
              intro es2 heq e hme
              cases heq
              rcases List.mem_or_eq_of_mem_set hme with hme2 | hme2
              · exact load_entries_ok fs bid es hd hld e hme2
              · rw [hme2]
                exact EntryOk_free

theorem RootInv_remove (fuel : ℕ) (fs : FS) (path : List Char)
    (hinv : RootInv fs) : RootInv (exfs2_remove fuel fs path) := by
  rw [exfs2_remove]
  split
  · exact hinv
  · cases hroot : read_inode fs 0 with
    | none => exact hinv
    | some root =>
        simp only [hroot]
        cases hw : removeWalk fs root (split_path path).dropLast with
        | none => exact hinv
        | some parent =>
            simp only [hw]
            split
            · exact hinv
            · have htpos : 1 ≤ find_entry_in_dir fs parent
                  ((split_path path).getLast (by assumption)) :=
                find_entry_in_dir_pos fs parent _ hinv.2 (by assumption)
              have htn : 1 ≤ (find_entry_in_dir fs parent
                  ((split_path path).getLast (by assumption))).toNat := by omega
              have hrec : RootInv (exfs2_remove_recursive fuel fs
                  (find_entry_in_dir fs parent
                    ((split_path path).getLast (by assumption))).toNat) :=
                ⟨remove_rec_bit0 fuel fs _ hinv.2 htn hinv.1,
                 DiskOk_of_disk_eq fs _ (remove_rec_disk fuel fs _) hinv.2⟩
              refine ⟨?_, ?_⟩
              · rw [clear_entry_ibm]
                exact hrec.1
              · exact clear_entry_diskOk _ _ _ hrec.2

/-- The root-protection invariant holds in every reachable state. -/
theorem RootInv_reach (fs : FS) (hr : Reach fs) : RootInv fs := by
  induction hr with
  | fresh => exact RootInv_fresh
  | add fs path lf hfs ihf => exact RootInv_add fs path lf ihf
  | remove fs fuel path hfs ihf => exact RootInv_remove fuel fs path ihf

/-- Claim C10 (confirmed): the root directory is indestructible.  An empty
path and the bare `"/"` split to zero components, which `exfs2_remove`
rejects, and in every reachable state no directory entry names inode 0
(allocation never hands out inode 0 while the root bit is set), so the
removal recursion can only be started at — and only ever reaches — inodes
with number at least 1: after any `exfs2_remove` on any reachable state the
root inode's bitmap bit is still set. -/
theorem root_inode_never_freed :
    split_path [] = [] ∧
    split_path [ '/' ] = [] ∧
    ∀ (fs : FS), Reach fs → ∀ (fuel : ℕ) (path : List Char),
      (exfs2_remove fuel fs path).ibm.getD 0 false = true := by
  refine ⟨rfl, rfl, ?_⟩
  intro fs hr fuel path
  exact (RootInv_remove fuel fs path (RootInv_reach fs hr)).1

theorem root_inode_never_freed_witness :
    (exfs2_remove 1 freshFS [ '/', 'a' ]).ibm.getD 0 false = true :=
  root_inode_never_freed.2.2 freshFS Reach.fresh 1 [ '/', 'a' ]
end Exfs2
